import Mathlib

/-!
# Error-control codecs: CRC (modulo-2 division) and Hamming single-error correction

A shallow embedding of the three C++ programs of the repository:

* `main.cpp`                — `xor_op`, `calculateCRC`            (namespace `Crc`)
* `main (1).cpp` (part_000) — `xor_op`, `mod2div`, receiver check  (namespace `CrcInteractive`)
* `main (5).cpp` (part_000) — `determine_redundant_bits`, `encode_data`,
  `set_parity_bits`, `decode_and_correct_error`                   (namespace `Hamming`)

Conventions.  A `std::string` is a `List Char`, a `std::vector<int>` is a `List Int`,
loop counters and lengths are `Nat` (the programs never drive them negative), and
`pow(2, i)` is the exact power `2 ^ i`.  Every element access is checked: a function
returns `none` exactly when the C++ code would read or write outside the container
(or would throw), so that `= some _` also states memory safety of the run.

Width of `int`.  `determine_redundant_bits` adds `m + r + 1` in 32-bit `int`.
`Hamming.determine_redundant_bits_int32` is that function with the 32-bit sum;
`Hamming.determine_redundant_bits` is the same loop in exact arithmetic, equal to
the former for `0 ≤ m ≤ 2^31 - 32` (`Hamming.determine_redundant_bits_int32_eq`),
and it is the one applied to the length of a data string.
-/

/-! ## Shared access primitives -/

/-- Read `s[i]` of a `std::string`: inside the string it is the character, at
`i = s.size()` it is the terminating null character, beyond that the access is
undefined (`none`). -/
def strAt (s : List Char) (i : Nat) : Option Char :=
  if i < s.length then s[i]?
  else if i = s.length then some (Char.ofNat 0)
  else none

/-- The call `s.substr(pos, len)`: throws (`none`) when `pos > s.size()`, otherwise
the at most `len` characters from `pos` on. -/
def substr (s : List Char) (pos len : Nat) : Option (List Char) :=
  if pos ≤ s.length then some ((s.drop pos).take len) else none

/-- The call `s.replace(pos, len, str)`: throws (`none`) when `pos > s.size()`,
otherwise the characters `pos .. pos+len-1` (clipped to the end) give way to `str`. -/
def strReplace (s : List Char) (pos len : Nat) (str : List Char) : Option (List Char) :=
  if pos ≤ s.length then some (s.take pos ++ str ++ s.drop (pos + len)) else none

/-- Read `v[i]` of a `std::vector<int>`; `none` outside the vector. -/
def vecGet (v : List Int) (i : Nat) : Option Int := v[i]?

/-- Write `v[i] = x` of a `std::vector<int>`; `none` outside the vector. -/
def vecSet (v : List Int) (i : Nat) (x : Int) : Option (List Int) :=
  if i < v.length then some (v.set i x) else none

/-- A binary string: every character is `'0'` or `'1'`. -/
def IsBinary (s : List Char) : Prop := ∀ c ∈ s, c = '0' ∨ c = '1'

instance (s : List Char) : Decidable (IsBinary s) := by
  unfold IsBinary; infer_instance

/-! ## Hamming encoder and decoder (`main (5).cpp`) -/

namespace Hamming

/-- The loop `while (pow(2, r) < m + r + 1) r++;` started at the given `r`, with
the sum `m + r + 1` in exact arithmetic: the loop of the source as long as the
32-bit sum does not overflow, that is for `m ≤ 2^31 - 32` (see `redundantLoopInt32`
for the loop with the 32-bit sum). -/
def redundantLoop (m r : Nat) : Nat :=
  if 2 ^ r < m + r + 1 then redundantLoop m (r + 1) else r
termination_by m + 1 - r
decreasing_by
  have h : ∀ k : Nat, 2 * k ≤ 2 ^ k := by
    intro k
    induction k with
    | zero => simp
    | succ j _ =>
      have hj : j < 2 ^ j := Nat.lt_two_pow j
      rw [Nat.pow_succ]; omega
  have hr := h r
  omega

/-- Source `determine_redundant_bits`: `r = 0`, then the loop, then `return r`, in
exact arithmetic (the value of the source for `0 ≤ m ≤ 2^31 - 32`). -/
def determine_redundant_bits (m : Nat) : Nat := redundantLoop m 0

/-- The value of a 32-bit `int` addition whose exact result is `x`: reduction into
`-2^31 .. 2^31 - 1` by two's-complement wrap-around.  (In C++ the overflow is
undefined behaviour; wrap-around is what the usual compilers produce.) -/
def wrapInt32 (x : Int) : Int := (x + 2147483648) % 4294967296 - 2147483648

/-- The loop `while (pow(2, r) < m + r + 1) r++;` with `m + r + 1` evaluated as the
source does, `(m + r) + 1` in 32-bit `int`, and compared with the exact power
`pow(2, r)`.  The sum never exceeds `2^31 - 1`, so the loop stops at `r = 31` at
the latest. -/
def redundantLoopInt32 (m : Int) (r : Nat) : Nat :=
  if (2 : Int) ^ r < wrapInt32 (wrapInt32 (m + (r : Int)) + 1) then
    redundantLoopInt32 m (r + 1)
  else r
termination_by 31 - r
decreasing_by
  rename_i hlt
  have hw : wrapInt32 (wrapInt32 (m + (r : Int)) + 1) < 2147483648 := by
    unfold wrapInt32; omega
  have hr : r < 31 := by
    by_contra hcon
    have h31 : (2 : Int) ^ 31 ≤ 2 ^ r := pow_le_pow_right₀ (by norm_num) (by omega)
    norm_num at h31
    omega
  omega

/-- Source `determine_redundant_bits` on a 32-bit `int m`: `r = 0`, then the loop
with the 32-bit sum, then `return r`. -/
def determine_redundant_bits_int32 (m : Int) : Nat := redundantLoopInt32 m 0

/-- Body of the `for (i = 1; i <= n; ++i)` loop of `encode_data`; the state is
`(data_packet, data_idx)`. -/
def encodeStep (data_str : List Char) (st : List Int × Nat) (i : Nat) :
    Option (List Int × Nat) :=
  if i &&& (i - 1) = 0 then
    (vecSet st.1 (i - 1) 0).map (fun pkt => (pkt, st.2))
  else
    match data_str[st.2]? with
    | some c =>
      (vecSet st.1 (i - 1) ((c.toNat : Int) - (('0').toNat : Int))).map
        (fun pkt => (pkt, st.2 + 1))
    | none => none

/-- The placement loop of `encode_data` over the positions `1 .. n`, from the
zero-initialised `vector<int> data_packet(n)` and `data_idx = 0`; it returns the
final `(data_packet, data_idx)`. -/
def encodeLoop (data_str : List Char) (n : Nat) : Option (List Int × Nat) :=
  (List.range' 1 n).foldlM (encodeStep data_str) (List.replicate n 0, 0)

/-- Source `encode_data`: returns the packet with placeholders together with the
value stored in the output parameter `r`. -/
def encode_data (data_str : List Char) : Option (List Int × Nat) :=
  let m := data_str.length
  let r := determine_redundant_bits m
  let n := m + r
  (encodeLoop data_str n).map (fun st => (st.1, r))

/-- Body of the inner loop of `set_parity_bits` for position `j`: positions not
covered by the check and the parity position itself are skipped. -/
def parityStep (data_packet : List Int) (parity_pos : Nat) (count j : Nat) : Option Nat :=
  if j &&& parity_pos ≠ 0 then
    if j = parity_pos then some count
    else (vecGet data_packet (j - 1)).map (fun b => if b = 1 then count + 1 else count)
  else some count

/-- Body of the outer loop of `set_parity_bits` for check `i`. -/
def setParityStep (n : Nat) (data_packet : List Int) (i : Nat) : Option (List Int) :=
  let parity_pos := 2 ^ i
  ((List.range' 1 n).foldlM (parityStep data_packet parity_pos) 0).bind
    (fun count => vecSet data_packet (parity_pos - 1) ((count % 2 : Nat) : Int))

/-- Source `set_parity_bits`. -/
def set_parity_bits (data_packet : List Int) (r : Nat) : Option (List Int) :=
  let n := data_packet.length
  (List.range r).foldlM (setParityStep n) data_packet

/-- Body of the inner loop of `decode_and_correct_error` for position `j`. -/
def syndromeStep (received_packet : List Int) (parity_pos : Nat) (count j : Nat) :
    Option Nat :=
  if j &&& parity_pos ≠ 0 then
    (vecGet received_packet (j - 1)).map (fun b => if b = 1 then count + 1 else count)
  else some count

/-- Body of the outer loop of `decode_and_correct_error` for check `i`; the state
is `(syndrome_bits, error_pos)`. -/
def decodeStep (n : Nat) (received_packet : List Int) (st : List Int × Nat) (i : Nat) :
    Option (List Int × Nat) :=
  let parity_pos := 2 ^ i
  ((List.range' 1 n).foldlM (syndromeStep received_packet parity_pos) 0).bind
    (fun count =>
      let syndrome_bit := count % 2
      (vecSet st.1 i (syndrome_bit : Int)).map
        (fun bits => (bits, if syndrome_bit = 1 then st.2 + parity_pos else st.2)))

/-- The syndrome loop of `decode_and_correct_error`: final `(syndrome_bits, error_pos)`. -/
def syndromeLoop (received_packet : List Int) (r : Nat) : Option (List Int × Nat) :=
  (List.range r).foldlM (decodeStep received_packet.length received_packet)
    (List.replicate r 0, 0)

/-- Source `decode_and_correct_error`: returns the packet as the call leaves it and
the returned `error_pos`. -/
def decode_and_correct_error (received_packet : List Int) (r : Nat) :
    Option (List Int × Nat) :=
  let n := received_packet.length
  (syndromeLoop received_packet r).bind (fun st =>
    let error_pos := st.2
    if error_pos ≠ 0 then
      if error_pos ≤ n then
        (vecGet received_packet (error_pos - 1)).bind (fun b =>
          (vecSet received_packet (error_pos - 1) (Int.xor b 1)).map
            (fun pkt => (pkt, error_pos)))
      else some (received_packet, error_pos)
    else some (received_packet, error_pos))

/-- The channel simulation of `main`: `received_packet[p - 1] ^= 1`, done only for
`0 < p <= n`. -/
def flipBit (packet : List Int) (p : Nat) : List Int :=
  if 0 < p ∧ p ≤ packet.length then
    packet.set (p - 1) (Int.xor (packet.getD (p - 1) 0) 1)
  else packet

/-- Position `j` (1-based) is covered by check `i`, that is `j AND 2^i` is
non-zero, and holds a 1. -/
def coveredOne (packet : List Int) (i j : Nat) : Bool :=
  decide (j &&& 2 ^ i ≠ 0) && decide (packet.getD (j - 1) 0 = 1)

/-- Number of 1-bits of `packet` among the 1-based positions `j` in `1 .. n`
(`n` the packet length) with `j AND 2^i` non-zero, the parity position included. -/
def coveredOnes (packet : List Int) (i : Nat) : Nat :=
  ((List.range' 1 packet.length).filter (coveredOne packet i)).length

/-- As `coveredOne`, for the positions other than the parity position `2^i`. -/
def coveredOther (packet : List Int) (i j : Nat) : Bool :=
  coveredOne packet i j && decide (j ≠ 2 ^ i)

/-- The count of check `i` with the parity position `2^i` itself left out. -/
def coveredOthers (packet : List Int) (i : Nat) : Nat :=
  ((List.range' 1 packet.length).filter (coveredOther packet i)).length

/-- The syndrome as a number: check `i` contributes `2^i` exactly when the count
of 1-bits it covers is odd. -/
def syndromeValue (packet : List Int) (r : Nat) : Nat :=
  ((List.range r).map (fun i => coveredOnes packet i % 2 * 2 ^ i)).sum

/-- Position `i` is a power of two; the exponent is necessarily below `i`, which
makes the property decidable by search. -/
def IsPowerOfTwo (i : Nat) : Prop := ∃ k, k < i ∧ i = 2 ^ k

instance : DecidablePred IsPowerOfTwo := fun i => by
  unfold IsPowerOfTwo; infer_instance

/-- Position `i` is reserved for a parity bit. -/
def isParityPos (i : Nat) : Bool := decide (IsPowerOfTwo i)

/-- Position `i` carries a data bit. -/
def isDataPos (i : Nat) : Bool := !decide (IsPowerOfTwo i)

/-- The conversion `c - '0'` of `encode_data`. -/
def bitOf (c : Char) : Int := (c.toNat : Int) - (('0').toNat : Int)

/-- Every entry of the packet is 0 or 1. -/
def IsBitVector (packet : List Int) : Prop := ∀ b ∈ packet, b = 0 ∨ b = 1

instance (packet : List Int) : Decidable (IsBitVector packet) := by
  unfold IsBitVector; infer_instance

end Hamming

/-! ## CRC by in-place modulo-2 division (`main.cpp`) -/

namespace Crc

/-- Source `xor_op` of `main.cpp`: one output character for every index of `a`,
`'0'` where `a[i] == b[i]` and `'1'` elsewhere. -/
def xor_op (a b : List Char) : Option (List Char) :=
  (List.range a.length).foldlM
    (fun result i =>
      (strAt a i).bind (fun x =>
        (strAt b i).map (fun y => result ++ [if x = y then '0' else '1'])))
    []

/-- Body of the division loop of `calculateCRC` at index `i`. -/
def divideStep (generator dividend : List Char) (i : Nat) : Option (List Char) :=
  (strAt dividend i).bind (fun c =>
    if c = '1' then
      (substr dividend i generator.length).bind (fun segment =>
        (xor_op segment generator).bind (fun remainder_segment =>
          strReplace dividend i generator.length remainder_segment))
    else some dividend)

/-- The loop `for (int i = 0; i < data_len; i++)` of `calculateCRC`, run on a
working dividend. -/
def divideLoop (generator dividend : List Char) (data_len : Nat) : Option (List Char) :=
  (List.range data_len).foldlM (divideStep generator) dividend

/-- Source `calculateCRC`.  With an empty generator `k` is `-1` and
`string(k, '0')` throws, which is the `none` of the first branch. -/
def calculateCRC (data generator : List Char) : Option (List Char) :=
  let data_len := data.length
  let gen_len := generator.length
  if gen_len = 0 then none
  else
    let k := gen_len - 1
    let augmented_data := data ++ List.replicate k '0'
    (divideLoop generator augmented_data data_len).bind (fun dividend =>
      substr dividend data_len k)

/-- Modelled from the spec: the operation `verify(received, generator)` of the CRC
codec, which `main.cpp` does not contain.  It performs the division of
`calculateCRC` over the entire received string, without appending zeros (the loop
runs over the positions before the last `k`), and answers `true` exactly when the
last `k` characters are all `'0'`. -/
def verify (received generator : List Char) : Option Bool :=
  let k := generator.length - 1
  let data_len := received.length - k
  (divideLoop generator received data_len).bind (fun dividend =>
    (substr dividend data_len k).map (fun remainder => remainder.all (fun c => c = '0')))

/-- The received string with the character at 0-based index `p` complemented
(`'1'` becomes `'0'`, any other character becomes `'1'`). -/
def flipChar : List Char → Nat → List Char
  | [], _ => []
  | c :: s, 0 => (if c = '1' then '0' else '1') :: s
  | c :: s, p + 1 => c :: flipChar s p

end Crc

/-! ## Interactive CRC program (`main (1).cpp`) -/

namespace CrcInteractive

/-- Source `xor_op` of `main (1).cpp`: indices `1 .. b.size()-1`, so the leading
character is dropped and the length of the result follows `b`. -/
def xor_op (a b : List Char) : Option (List Char) :=
  (List.range' 1 (b.length - 1)).foldlM
    (fun r i =>
      (strAt a i).bind (fun x =>
        (strAt b i).map (fun y => r ++ [if x = y then '0' else '1'])))
    []

/-- Body of the `while (pick < dividend.size())` loop of `mod2div` for the current
value of `pick` (the loop then does `pick++`). -/
def mod2divStep (dividend divisor tmp : List Char) (pick : Nat) : Option (List Char) :=
  (strAt tmp 0).bind (fun t0 =>
    (if t0 = '1' then xor_op tmp divisor
     else xor_op tmp (List.replicate pick '0')).bind (fun x =>
      (strAt dividend pick).map (fun d => x ++ [d])))

/-- Source `mod2div`.  The loop counter `pick` runs from `divisor.size()` to
`dividend.size() - 1`; after the loop it is the larger of the two sizes. -/
def mod2div (dividend divisor : List Char) : Option (List Char) :=
  let pick0 := divisor.length
  (substr dividend 0 pick0).bind (fun tmp0 =>
    ((List.range' pick0 (dividend.length - pick0)).foldlM
        (mod2divStep dividend divisor) tmp0).bind (fun tmp =>
      let pick := max pick0 dividend.length
      (strAt tmp 0).bind (fun t0 =>
        if t0 = '1' then xor_op tmp divisor
        else xor_op tmp (List.replicate pick '0'))))

/-- Sender side of `main`: the codeword `data + mod2div(data + zeros, div)`. -/
def codeword (data div : List Char) : Option (List Char) :=
  (mod2div (data ++ List.replicate (div.length - 1) '0') div).map (fun rem => data ++ rem)

/-- Receiver side of `main`: `true` stands for "No error detected.", that is
`r.find('1') == npos` for `r = mod2div(recv, div)`. -/
def receiverCheck (recv div : List Char) : Option Bool :=
  (mod2div recv div).map (fun r => !(r.contains '1'))

end CrcInteractive

/-! ## Receiver report of the Hamming `main` -/

namespace Hamming

/-- The two result lines `main` can print after the call of the decoder. -/
inductive ReceiverResult where
  /-- The line "Result: Correct data packet received." -/
  | correctPacket : ReceiverResult
  /-- The line "Result: Error detected at position `pos` and corrected." -/
  | detectedAndCorrected (pos : Nat) : ReceiverResult
  deriving DecidableEq

/-- The branch of `main` on `detected_error_pos`, the value returned by
`decode_and_correct_error`. -/
def receiverResult (detected_error_pos : Nat) : ReceiverResult :=
  if detected_error_pos = 0 then ReceiverResult.correctPacket
  else ReceiverResult.detectedAndCorrected detected_error_pos

end Hamming

/-! ## Specification-side notions for the CRC programs -/

/-- The character written by `xor_op` for the pair `x`, `y`. -/
def xorChar (x y : Char) : Char := if x = y then '0' else '1'

/-- The polynomial over GF(2) denoted by a bit string: `b0 b1 ... b(l-1)` stands
for `b0 x^(l-1) + b1 x^(l-2) + ... + b(l-1)`, a character counting as the
coefficient 1 exactly when it is `'1'`. -/
noncomputable def bitPoly : List Char → Polynomial (ZMod 2)
  | [] => 0
  | c :: s => Polynomial.C (if c = '1' then 1 else 0) * Polynomial.X ^ s.length + bitPoly s

/-! ## Arithmetic of bit positions -/

theorem testBit_of_between {x k : Nat} (h1 : 2 ^ k ≤ x) (h2 : x < 2 ^ (k + 1)) :
    x.testBit k = true := by
  rw [Nat.testBit_to_div_mod]
  have hdiv : x / 2 ^ k = 1 := by
    apply Nat.div_eq_of_lt_le
    · omega
    · rw [Nat.pow_succ] at h2; omega
  simp [hdiv]

theorem and_two_pow_ne_zero_iff (j i : Nat) : j &&& 2 ^ i ≠ 0 ↔ j.testBit i = true := by
  rw [Nat.and_two_pow]
  have hpos : 0 < 2 ^ i := Nat.pow_pos (by decide)
  cases h : j.testBit i <;> simp [Bool.toNat]

/-- The test `(i & (i - 1)) == 0` of the programs singles out the powers of two. -/
theorem and_pred_eq_zero_iff (i : Nat) (hi : 1 ≤ i) :
    i &&& (i - 1) = 0 ↔ ∃ k, i = 2 ^ k := by
  constructor
  · intro h
    refine ⟨Nat.log2 i, ?_⟩
    have hne : i ≠ 0 := by omega
    have hlo : 2 ^ Nat.log2 i ≤ i := Nat.log2_self_le hne
    have hhi : i < 2 ^ (Nat.log2 i + 1) := Nat.lt_log2_self
    by_contra hcon
    have h1 : i.testBit (Nat.log2 i) = true := testBit_of_between hlo hhi
    have h2 : (i - 1).testBit (Nat.log2 i) = true :=
      testBit_of_between (by omega) (by omega)
    have h3 : (i &&& (i - 1)).testBit (Nat.log2 i) = true := by
      rw [Nat.testBit_and, h1, h2]; rfl
    rw [h] at h3
    simp at h3
  · rintro ⟨k, rfl⟩
    rw [Nat.and_pow_two_sub_one_eq_mod]
    exact Nat.mod_self _

/-- The binary digits of `p` below `2^r` add up to `p mod 2^r`. -/
theorem sum_bits_eq_mod (p r : Nat) :
    ((List.range r).map (fun i => if p.testBit i then 2 ^ i else 0)).sum = p % 2 ^ r := by
  induction r with
  | zero => simp [Nat.mod_one]
  | succ k ih =>
    rw [List.range_succ, List.map_append, List.sum_append, ih, Nat.mod_pow_succ]
    simp only [List.map_cons, List.map_nil, List.sum_cons, List.sum_nil, Nat.add_zero]
    rw [Nat.testBit_to_div_mod]
    rcases Nat.mod_two_eq_zero_or_one (p / 2 ^ k) with h | h <;> simp [h]

/-- Changing a predicate at the single point `q` changes its count over a range
by the difference of the two indicator values at `q`. -/
theorem filter_range'_update (P P' : Nat → Bool) (q : Nat) :
    ∀ (n s : Nat), (∀ j, s ≤ j → j ≠ q → P' j = P j) →
      ((List.range' s n).filter P').length + (if s ≤ q ∧ q < s + n ∧ P q = true then 1 else 0)
        = ((List.range' s n).filter P).length
            + (if s ≤ q ∧ q < s + n ∧ P' q = true then 1 else 0) := by
  intro n
  induction n with
  | zero =>
    intro s _
    have h0 : ¬ (s ≤ q ∧ q < s + 0 ∧ P q = true) := by omega
    have h1 : ¬ (s ≤ q ∧ q < s + 0 ∧ P' q = true) := by omega
    rw [if_neg h0, if_neg h1]; simp
  | succ k ih =>
    intro s h
    have hrec := ih (s + 1) (fun j hj hne => h j (by omega) hne)
    rw [List.range'_succ]
    by_cases hsq : s = q
    · subst hsq
      have e1 : ¬ (s + 1 ≤ s ∧ s < s + 1 + k ∧ P s = true) := by omega
      have e2 : ¬ (s + 1 ≤ s ∧ s < s + 1 + k ∧ P' s = true) := by omega
      rw [if_neg e1, if_neg e2] at hrec
      cases hp : P s <;> cases hp' : P' s <;>
        simp [List.filter_cons, hp, hp'] <;> omega
    · have hs : P' s = P s := h s (Nat.le_refl s) hsq
      have c1 : (s ≤ q ∧ q < s + (k + 1) ∧ P q = true)
          ↔ (s + 1 ≤ q ∧ q < s + 1 + k ∧ P q = true) := by
        constructor <;> rintro ⟨a, b, c⟩ <;> exact ⟨by omega, by omega, c⟩
      have c2 : (s ≤ q ∧ q < s + (k + 1) ∧ P' q = true)
          ↔ (s + 1 ≤ q ∧ q < s + 1 + k ∧ P' q = true) := by
        constructor <;> rintro ⟨a, b, c⟩ <;> exact ⟨by omega, by omega, c⟩
      simp only [c1, c2]
      cases hp : P s <;> simp [List.filter_cons, hs, hp] <;> omega

/-! ## Redundancy count -/

namespace Hamming

theorem redundantLoop_unfold (m r : Nat) :
    redundantLoop m r = if 2 ^ r < m + r + 1 then redundantLoop m (r + 1) else r := by
  rw [redundantLoop]

/-- The loop stops at the first value from `r` on that violates the loop condition. -/
theorem redundantLoop_spec (m r : Nat) (hbelow : ∀ q, q < r → 2 ^ q < m + q + 1) :
    m + redundantLoop m r + 1 ≤ 2 ^ redundantLoop m r ∧
      ∀ q, q < redundantLoop m r → 2 ^ q < m + q + 1 := by
  induction r using redundantLoop.induct m with
  | case1 r hlt ih =>
    rw [redundantLoop_unfold, if_pos hlt]
    apply ih
    intro q hq
    rcases Nat.lt_succ_iff_lt_or_eq.mp hq with h | h
    · exact hbelow q h
    · subst h; exact hlt
  | case2 r hge =>
    rw [redundantLoop_unfold, if_neg hge]
    exact ⟨by omega, hbelow⟩

theorem drb_spec (m : Nat) :
    m + determine_redundant_bits m + 1 ≤ 2 ^ determine_redundant_bits m ∧
      ∀ q, q < determine_redundant_bits m → 2 ^ q < m + q + 1 :=
  redundantLoop_spec m 0 (fun q hq => absurd hq (Nat.not_lt_zero q))

/-- The result is determined by the two defining inequalities. -/
theorem drb_unique (m r : Nat) (h1 : m + r + 1 ≤ 2 ^ r)
    (h2 : ∀ q, q < r → 2 ^ q < m + q + 1) : determine_redundant_bits m = r := by
  obtain ⟨g1, g2⟩ := drb_spec m
  rcases Nat.lt_trichotomy (determine_redundant_bits m) r with h | h | h
  · have := h2 _ h; omega
  · exact h
  · have := g2 _ h; omega

/-- Minimal redundancy of the loop in exact arithmetic.  `determine_redundant_bits` is
a total function; its result `r` satisfies `2^r ≥ m + r + 1`, every smaller `q` has
`2^q < m + q + 1`, and the two recorded values are `9 ↦ 4`, `4 ↦ 3`.  By
`determine_redundant_bits_int32_eq` this is the behaviour of the source for
`0 ≤ m ≤ 2^31 - 32`. -/
theorem determine_redundant_bits_minimal :
    (∀ m : Nat,
      m + determine_redundant_bits m + 1 ≤ 2 ^ determine_redundant_bits m ∧
      ∀ q, q < determine_redundant_bits m → 2 ^ q < m + q + 1) ∧
    determine_redundant_bits 9 = 4 ∧ determine_redundant_bits 4 = 3 := by
  refine ⟨drb_spec, ?_, ?_⟩
  · simp [determine_redundant_bits, redundantLoop]
  · simp [determine_redundant_bits, redundantLoop]

end Hamming

/-! ## Parity counts of a packet -/

namespace Hamming

theorem getD_set_self (pkt : List Int) (k : Nat) (v : Int) (hk : k < pkt.length) :
    (pkt.set k v).getD k 0 = v := by
  rw [List.getD_eq_getElem?_getD, List.getElem?_set_self hk]; rfl

theorem getD_set_other (pkt : List Int) (k t : Nat) (v : Int) (hkt : k ≠ t) :
    (pkt.set k v).getD t 0 = pkt.getD t 0 := by
  rw [List.getD_eq_getElem?_getD, List.getD_eq_getElem?_getD, List.getElem?_set_ne hkt]

theorem getElem?_eq_some_getD (pkt : List Int) (k : Nat) (hk : k < pkt.length) :
    pkt[k]? = some (pkt.getD k 0) := by
  rw [List.getD_eq_getElem?_getD, List.getElem?_eq_getElem hk]; rfl

/-- Overwriting position `q` changes the count of check `i` by the difference of
the indicator values at `q`. -/
theorem coveredOnes_set (pkt : List Int) (q i : Nat) (v : Int)
    (hq1 : 1 ≤ q) (hq2 : q ≤ pkt.length) :
    coveredOnes (pkt.set (q - 1) v) i + (if coveredOne pkt i q = true then 1 else 0)
      = coveredOnes pkt i + (if q.testBit i = true ∧ v = 1 then 1 else 0) := by
  have h := filter_range'_update (coveredOne pkt i) (coveredOne (pkt.set (q - 1) v) i) q
    pkt.length 1 (by
      intro j hj hne
      unfold coveredOne
      rw [getD_set_other pkt (q - 1) (j - 1) v (by omega)])
  have hin : (1 ≤ q ∧ q < 1 + pkt.length) := ⟨hq1, by omega⟩
  have hnew : coveredOne (pkt.set (q - 1) v) i q = true ↔ (q.testBit i = true ∧ v = 1) := by
    unfold coveredOne
    rw [getD_set_self pkt (q - 1) v (by omega), Bool.and_eq_true, decide_eq_true_iff,
      decide_eq_true_iff, and_two_pow_ne_zero_iff]
  unfold coveredOnes
  rw [List.length_set]
  simp only [hin, true_and, hnew] at h
  exact h

/-- A write outside the covering set of check `i` leaves its count alone. -/
theorem coveredOnes_set_uncovered (pkt : List Int) (q i : Nat) (v : Int)
    (hq1 : 1 ≤ q) (hq2 : q ≤ pkt.length) (hcov : q.testBit i = false) :
    coveredOnes (pkt.set (q - 1) v) i = coveredOnes pkt i := by
  have h := coveredOnes_set pkt q i v hq1 hq2
  have h1 : ¬ coveredOne pkt i q = true := by
    unfold coveredOne
    have : ¬ (q &&& 2 ^ i ≠ 0) := by rw [and_two_pow_ne_zero_iff, hcov]; simp
    rw [decide_eq_false this]; simp
  have h2 : ¬ (q.testBit i = true ∧ v = 1) := by rw [hcov]; simp
  rw [if_neg h1, if_neg h2] at h
  exact h

/-- The count without the parity position, against the full count. -/
theorem coveredOthers_add (pkt : List Int) (i : Nat) (h1 : 2 ^ i ≤ pkt.length) :
    coveredOthers pkt i + (if pkt.getD (2 ^ i - 1) 0 = 1 then 1 else 0) = coveredOnes pkt i := by
  have hpos : 0 < 2 ^ i := Nat.pow_pos (by decide)
  have h := filter_range'_update (coveredOne pkt i) (coveredOther pkt i) (2 ^ i) pkt.length 1 (by
      intro j _ hne
      simp [coveredOther, hne])
  have hin : (1 ≤ 2 ^ i ∧ 2 ^ i < 1 + pkt.length) := ⟨hpos, by omega⟩
  have hcov : coveredOne pkt i (2 ^ i) = true ↔ pkt.getD (2 ^ i - 1) 0 = 1 := by
    unfold coveredOne
    rw [Bool.and_eq_true, decide_eq_true_iff, decide_eq_true_iff, and_two_pow_ne_zero_iff,
      Nat.testBit_two_pow_self]
    simp
  have hoth : ¬ coveredOther pkt i (2 ^ i) = true := by simp [coveredOther]
  unfold coveredOthers coveredOnes
  simp only [hin, true_and, hcov] at h
  rw [if_neg hoth] at h
  exact h

end Hamming

/-! ## The loops of the decoder and of the parity computation -/

namespace Hamming

theorem syndromeStep_fold (pkt : List Int) (i : Nat) :
    ∀ (l : List Nat) (c : Nat), (∀ j ∈ l, 1 ≤ j ∧ j ≤ pkt.length) →
      l.foldlM (syndromeStep pkt (2 ^ i)) c
        = some (c + (l.filter (coveredOne pkt i)).length) := by
  intro l
  induction l with
  | nil => intro c _; simp
  | cons a l ih =>
    intro c hl
    have ha := hl a (List.mem_cons_self a l)
    have hl2 : ∀ j ∈ l, 1 ≤ j ∧ j ≤ pkt.length := fun j hj => hl j (List.mem_cons_of_mem a hj)
    have hget := getElem?_eq_some_getD pkt (a - 1) (by omega)
    rw [List.foldlM_cons]
    by_cases hc : a &&& 2 ^ i ≠ 0
    · by_cases hb : pkt.getD (a - 1) 0 = 1
      · have hcov : coveredOne pkt i a = true := by
          unfold coveredOne; rw [decide_eq_true hc, decide_eq_true hb]; rfl
        simp only [syndromeStep, vecGet, hget, hc, hb, if_true, Option.map_some', ne_eq,
          not_false_eq_true, ite_true]
        simp only [Option.bind_eq_bind, Option.some_bind, ih (c + 1) hl2]
        rw [List.filter_cons_of_pos hcov, List.length_cons]
        congr 1; omega
      · have hcov : ¬ coveredOne pkt i a = true := by
          unfold coveredOne; rw [decide_eq_false hb]; simp
        simp only [syndromeStep, vecGet, hget, hc, hb, if_true, Option.map_some', ne_eq,
          not_false_eq_true, ite_true, ite_false]
        simp only [Option.bind_eq_bind, Option.some_bind, ih c hl2]
        rw [List.filter_cons_of_neg hcov]
    · have hcov : ¬ coveredOne pkt i a = true := by
        unfold coveredOne; rw [decide_eq_false hc]; simp
      simp only [syndromeStep, hc, if_false]
      simp only [Option.bind_eq_bind, Option.some_bind, ih c hl2]
      rw [List.filter_cons_of_neg hcov]

/-- The inner loop of the decoder computes the count of check `i`, reading only
inside the packet. -/
theorem syndrome_inner (pkt : List Int) (i : Nat) :
    (List.range' 1 pkt.length).foldlM (syndromeStep pkt (2 ^ i)) 0
      = some (coveredOnes pkt i) := by
  rw [syndromeStep_fold pkt i _ 0]
  · simp [coveredOnes]
  · intro j hj
    rw [List.mem_range'_1] at hj
    omega

theorem parityStep_fold (pkt : List Int) (i : Nat) :
    ∀ (l : List Nat) (c : Nat), (∀ j ∈ l, 1 ≤ j ∧ j ≤ pkt.length) →
      l.foldlM (parityStep pkt (2 ^ i)) c
        = some (c + (l.filter (coveredOther pkt i)).length) := by
  intro l
  induction l with
  | nil => intro c _; simp
  | cons a l ih =>
    intro c hl
    have ha := hl a (List.mem_cons_self a l)
    have hl2 : ∀ j ∈ l, 1 ≤ j ∧ j ≤ pkt.length := fun j hj => hl j (List.mem_cons_of_mem a hj)
    have hget := getElem?_eq_some_getD pkt (a - 1) (by omega)
    rw [List.foldlM_cons]
    by_cases hc : a &&& 2 ^ i ≠ 0
    · by_cases hself : a = 2 ^ i
      · have hcov : ¬ coveredOther pkt i a = true := by
          simp [coveredOther, hself]
        have hstep : parityStep pkt (2 ^ i) c a = some c := by
          unfold parityStep; rw [if_pos hc, if_pos hself]
        rw [hstep]
        simp only [Option.bind_eq_bind, Option.some_bind, ih c hl2]
        rw [List.filter_cons_of_neg hcov]
      · by_cases hb : pkt.getD (a - 1) 0 = 1
        · have hcov : coveredOther pkt i a = true := by
            unfold coveredOther coveredOne
            rw [decide_eq_true hc, decide_eq_true hb, decide_eq_true hself]; rfl
          simp only [parityStep, vecGet, hget, hc, hb, hself, if_true, Option.map_some', ne_eq,
            not_false_eq_true, ite_true, ite_false]
          simp only [Option.bind_eq_bind, Option.some_bind, ih (c + 1) hl2]
          rw [List.filter_cons_of_pos hcov, List.length_cons]
          congr 1; omega
        · have hcov : ¬ coveredOther pkt i a = true := by
            unfold coveredOther coveredOne; rw [decide_eq_false hb]; simp
          simp only [parityStep, vecGet, hget, hc, hb, hself, if_true, Option.map_some', ne_eq,
            not_false_eq_true, ite_true, ite_false]
          simp only [Option.bind_eq_bind, Option.some_bind, ih c hl2]
          rw [List.filter_cons_of_neg hcov]
    · have hcov : ¬ coveredOther pkt i a = true := by
        unfold coveredOther coveredOne; rw [decide_eq_false hc]; simp
      simp only [parityStep, hc, if_false]
      simp only [Option.bind_eq_bind, Option.some_bind, ih c hl2]
      rw [List.filter_cons_of_neg hcov]

/-- The inner loop of `set_parity_bits` computes the count of check `i` without
the parity position. -/
theorem parity_inner (pkt : List Int) (i : Nat) :
    (List.range' 1 pkt.length).foldlM (parityStep pkt (2 ^ i)) 0
      = some (coveredOthers pkt i) := by
  rw [parityStep_fold pkt i _ 0]
  · simp [coveredOthers]
  · intro j hj
    rw [List.mem_range'_1] at hj
    omega

/-- One round of `set_parity_bits`, as a plain list update. -/
theorem setParityStep_eq (pkt : List Int) (i : Nat) (h : 2 ^ i ≤ pkt.length) :
    setParityStep pkt.length pkt i
      = some (pkt.set (2 ^ i - 1) ((coveredOthers pkt i % 2 : Nat) : Int)) := by
  have hpos : 0 < 2 ^ i := Nat.pow_pos (by decide)
  have hlt : 2 ^ i - 1 < pkt.length := by omega
  simp only [setParityStep, parity_inner, Option.some_bind, vecSet, hlt, if_true]

/-- One round of the syndrome loop. -/
theorem decodeStep_eq (pkt bits : List Int) (e i : Nat) (h : i < bits.length) :
    decodeStep pkt.length pkt (bits, e) i
      = some (bits.set i ((coveredOnes pkt i % 2 : Nat) : Int),
          e + coveredOnes pkt i % 2 * 2 ^ i) := by
  simp only [decodeStep, syndrome_inner, Option.some_bind, vecSet, h, if_true, Option.map_some']
  rcases Nat.mod_two_eq_zero_or_one (coveredOnes pkt i) with h0 | h0 <;> simp [h0]

theorem syndromeLoop_upto (pkt : List Int) (r : Nat) :
    ∀ k, k ≤ r → ∃ bits : List Int, bits.length = r ∧
      (List.range k).foldlM (decodeStep pkt.length pkt) (List.replicate r 0, 0)
        = some (bits, syndromeValue pkt k) := by
  intro k
  induction k with
  | zero =>
    intro _
    exact ⟨List.replicate r 0, by simp, by simp [syndromeValue]⟩
  | succ k ih =>
    intro hk
    obtain ⟨bits, hlen, hrun⟩ := ih (by omega)
    refine ⟨bits.set k ((coveredOnes pkt k % 2 : Nat) : Int), by simp [hlen], ?_⟩
    rw [List.range_succ, List.foldlM_append, hrun]
    simp only [Option.bind_eq_bind, Option.some_bind, List.foldlM_cons, List.foldlM_nil]
    rw [decodeStep_eq pkt bits _ k (by omega)]
    simp [syndromeValue, List.range_succ]

/-- The syndrome loop always runs to its end and leaves `error_pos = syndromeValue`. -/
theorem syndromeLoop_eq (pkt : List Int) (r : Nat) :
    ∃ bits : List Int, bits.length = r ∧
      syndromeLoop pkt r = some (bits, syndromeValue pkt r) :=
  syndromeLoop_upto pkt r r (Nat.le_refl r)

/-- The decoder as a function: it returns the syndrome value and flips the bit at
that position when the position lies in `1 .. n`. -/
theorem decode_eq (pkt : List Int) (r : Nat) :
    decode_and_correct_error pkt r
      = some (flipBit pkt (syndromeValue pkt r), syndromeValue pkt r) := by
  obtain ⟨bits, _, hrun⟩ := syndromeLoop_eq pkt r
  unfold decode_and_correct_error flipBit
  simp only [hrun, Option.some_bind]
  by_cases h0 : syndromeValue pkt r = 0
  · simp [h0]
  · by_cases hn : syndromeValue pkt r ≤ pkt.length
    · have hlt : syndromeValue pkt r - 1 < pkt.length := by omega
      have hpos : 0 < syndromeValue pkt r := by omega
      rw [if_pos h0, if_pos hn, if_pos ⟨hpos, hn⟩]
      simp only [vecGet, vecSet, getElem?_eq_some_getD pkt _ hlt, Option.some_bind, if_pos hlt,
        Option.map_some']
    · simp [h0, hn]

end Hamming

/-! ## The parity computation -/

namespace Hamming

theorem isPowerOfTwo_iff (i : Nat) : IsPowerOfTwo i ↔ ∃ k, i = 2 ^ k := by
  constructor
  · rintro ⟨k, _, h⟩; exact ⟨k, h⟩
  · rintro ⟨k, h⟩; exact ⟨k, by rw [h]; exact Nat.lt_two_pow k, h⟩

theorem isBitVector_set (pkt : List Int) (k : Nat) (v : Int) (hp : IsBitVector pkt)
    (hv : v = 0 ∨ v = 1) : IsBitVector (pkt.set k v) := by
  intro b hb
  rcases List.mem_or_eq_of_mem_set hb with h | h
  · exact hp b h
  · rw [h]; exact hv

theorem isBitVector_getD (pkt : List Int) (k : Nat) (hp : IsBitVector pkt) :
    pkt.getD k 0 = 0 ∨ pkt.getD k 0 = 1 := by
  by_cases hk : k < pkt.length
  · have h : pkt.getD k 0 = pkt[k] := by
      rw [List.getD_eq_getElem?_getD, List.getElem?_eq_getElem hk]; rfl
    rw [h]
    exact hp _ (List.getElem_mem hk)
  · left
    rw [List.getD_eq_getElem?_getD, List.getElem?_eq_none (by omega)]; rfl

/-- After one round of `set_parity_bits` the count of the check just written is even. -/
theorem coveredOnes_after_round (pkt : List Int) (i : Nat) (h : 2 ^ i ≤ pkt.length) :
    coveredOnes (pkt.set (2 ^ i - 1) ((coveredOthers pkt i % 2 : Nat) : Int)) i % 2 = 0 := by
  have hpos : 0 < 2 ^ i := Nat.pow_pos (by decide)
  have h1 := coveredOnes_set pkt (2 ^ i) i ((coveredOthers pkt i % 2 : Nat) : Int) hpos h
  have h2 := coveredOthers_add pkt i h
  have hcov : coveredOne pkt i (2 ^ i) = true ↔ pkt.getD (2 ^ i - 1) 0 = 1 := by
    unfold coveredOne
    rw [Bool.and_eq_true, decide_eq_true_iff, decide_eq_true_iff, and_two_pow_ne_zero_iff,
      Nat.testBit_two_pow_self]
    simp
  have hv : (((2 ^ i).testBit i = true) ∧ ((coveredOthers pkt i % 2 : Nat) : Int) = 1)
      ↔ coveredOthers pkt i % 2 = 1 := by
    rw [Nat.testBit_two_pow_self]
    constructor
    · rintro ⟨_, hx⟩; exact_mod_cast hx
    · intro hx; exact ⟨rfl, by exact_mod_cast hx⟩
  simp only [hcov, hv] at h1
  split_ifs at h1 h2 <;> omega

/-- Invariant of the outer loop of `set_parity_bits` after `k` rounds. -/
theorem set_parity_upto (pkt0 : List Int) (r : Nat) (hr : ∀ i, i < r → 2 ^ i ≤ pkt0.length) :
    ∀ k, k ≤ r → ∃ P : List Int,
      (List.range k).foldlM (setParityStep pkt0.length) pkt0 = some P ∧
      P.length = pkt0.length ∧
      (∀ i, i < k → coveredOnes P i % 2 = 0) ∧
      (∀ j, 1 ≤ j → (∀ i, i < k → j ≠ 2 ^ i) → P.getD (j - 1) 0 = pkt0.getD (j - 1) 0) ∧
      (IsBitVector pkt0 → IsBitVector P) := by
  intro k
  induction k with
  | zero =>
    intro _
    exact ⟨pkt0, by simp, rfl, fun i hi => absurd hi (Nat.not_lt_zero i), fun _ _ _ => rfl,
      fun h => h⟩
  | succ k ih =>
    intro hk
    obtain ⟨P, hrun, hlen, hev, hsame, hbit⟩ := ih (by omega)
    have hk2 : 2 ^ k ≤ P.length := by rw [hlen]; exact hr k (by omega)
    have hpos : 0 < 2 ^ k := Nat.pow_pos (by decide)
    refine ⟨P.set (2 ^ k - 1) ((coveredOthers P k % 2 : Nat) : Int), ?_, ?_, ?_, ?_, ?_⟩
    · rw [List.range_succ, List.foldlM_append, hrun]
      simp only [Option.bind_eq_bind, Option.some_bind, List.foldlM_cons, List.foldlM_nil]
      rw [← hlen, setParityStep_eq P k hk2]
      rfl
    · rw [List.length_set, hlen]
    · intro i hi
      rcases Nat.lt_succ_iff_lt_or_eq.mp hi with h | h
      · rw [coveredOnes_set_uncovered P (2 ^ k) i _ hpos hk2
          (Nat.testBit_two_pow_of_ne (by omega))]
        exact hev i h
      · rw [h]; exact coveredOnes_after_round P k hk2
    · intro j hj hne
      rw [getD_set_other P (2 ^ k - 1) (j - 1) _ (by
        have := hne k (by omega)
        omega)]
      exact hsame j hj (fun i hi => hne i (by omega))
    · intro h0
      apply isBitVector_set _ _ _ (hbit h0)
      rcases Nat.mod_two_eq_zero_or_one (coveredOthers P k) with h | h <;> simp [h]

/-- The run of `set_parity_bits` on a packet long enough to hold the `r` parity positions. -/
theorem set_parity_bits_spec (pkt0 : List Int) (r : Nat)
    (hr : ∀ i, i < r → 2 ^ i ≤ pkt0.length) :
    ∃ P : List Int, set_parity_bits pkt0 r = some P ∧ P.length = pkt0.length ∧
      (∀ i, i < r → coveredOnes P i % 2 = 0) ∧
      (∀ j, 1 ≤ j → (∀ i, i < r → j ≠ 2 ^ i) → P.getD (j - 1) 0 = pkt0.getD (j - 1) 0) ∧
      (IsBitVector pkt0 → IsBitVector P) :=
  set_parity_upto pkt0 r hr r (Nat.le_refl r)

end Hamming

/-! ## The layout computed by `encode_data` -/

namespace Hamming

/-- Number of parity positions among `1 .. n`. -/
theorem parity_count (n : Nat) : ∀ r : Nat, n < 2 ^ r → (r = 0 ∨ 2 ^ (r - 1) ≤ n) →
    ((List.range' 1 n).filter isParityPos).length = r := by
  induction n with
  | zero =>
    intro r _ h2
    rcases h2 with h | h
    · simp [h]
    · have : 0 < 2 ^ (r - 1) := Nat.pow_pos (by decide)
      omega
  | succ n ih =>
    intro r h1 h2
    have hr : r ≠ 0 := by
      intro h0; rw [h0] at h1; simp at h1
    have h2' : 2 ^ (r - 1) ≤ n + 1 := by
      rcases h2 with h | h
      · exact absurd h hr
      · exact h
    rw [List.range'_1_concat, List.filter_append, List.length_append, Nat.add_comm 1 n]
    by_cases hp : IsPowerOfTwo (n + 1)
    · obtain ⟨k, _, hk⟩ := hp
      have hkr : k + 1 = r := by
        have a1 : 2 ^ (r - 1) ≤ 2 ^ k := by rw [← hk]; exact h2'
        have a2 : 2 ^ k < 2 ^ r := by rw [← hk]; exact h1
        have b1 : r - 1 ≤ k := (Nat.pow_le_pow_iff_right (by decide)).mp a1
        have b2 : k < r := (Nat.pow_lt_pow_iff_right (by decide)).mp a2
        omega
      have hprev := ih k (by omega) (by
        rcases Nat.eq_zero_or_pos k with h | h
        · left; exact h
        · right
          have : 2 ^ (k - 1) < 2 ^ k := Nat.pow_lt_pow_right (by decide) (by omega)
          omega)
      have hpos : isParityPos (n + 1) = true := by
        unfold isParityPos; exact decide_eq_true ⟨k, by rw [hk]; exact Nat.lt_two_pow k, hk⟩
      rw [hprev, List.filter_cons_of_pos hpos]
      simp [hkr]
    · have hprev := ih r (by omega) (by
        right
        rcases Nat.lt_or_eq_of_le h2' with h | h
        · omega
        · exfalso
          exact hp ⟨r - 1, by rw [← h]; exact Nat.lt_two_pow _, h.symm⟩)
      have hneg : ¬ isParityPos (n + 1) = true := by
        unfold isParityPos; simpa using hp
      rw [hprev, List.filter_cons_of_neg hneg]
      simp

/-- Parity and data positions partition `1 .. n`. -/
theorem data_count_add (n : Nat) :
    ((List.range' 1 n).filter isDataPos).length + ((List.range' 1 n).filter isParityPos).length
      = n := by
  induction n with
  | zero => simp
  | succ n ih =>
    rw [List.range'_1_concat, List.filter_append, List.filter_append, List.length_append,
      List.length_append]
    by_cases hp : IsPowerOfTwo (1 + n)
    · have h1 : isParityPos (1 + n) = true := by unfold isParityPos; exact decide_eq_true hp
      have h2 : ¬ isDataPos (1 + n) = true := by unfold isDataPos; simp [hp]
      rw [List.filter_cons_of_pos h1, List.filter_cons_of_neg h2]
      simp; omega
    · have h1 : ¬ isParityPos (1 + n) = true := by unfold isParityPos; simpa using hp
      have h2 : isDataPos (1 + n) = true := by unfold isDataPos; simp [hp]
      rw [List.filter_cons_of_neg h1, List.filter_cons_of_pos h2]
      simp; omega

/-- With `r = determine_redundant_bits m` exactly `r` of the positions `1 .. m + r`
are parity positions and `m` are data positions. -/
theorem data_count (m : Nat) :
    ((List.range' 1 (m + determine_redundant_bits m)).filter isDataPos).length = m
    ∧ ((List.range' 1 (m + determine_redundant_bits m)).filter isParityPos).length
        = determine_redundant_bits m := by
  obtain ⟨h1, h2⟩ := drb_spec m
  have hc := parity_count (m + determine_redundant_bits m) (determine_redundant_bits m)
    (by omega) (by
      rcases Nat.eq_zero_or_pos (determine_redundant_bits m) with h | h
      · left; exact h
      · right
        have := h2 (determine_redundant_bits m - 1) (by omega)
        omega)
  have ha := data_count_add (m + determine_redundant_bits m)
  exact ⟨by omega, hc⟩

theorem data_count_mono {t n : Nat} (h : t ≤ n) :
    ((List.range' 1 t).filter isDataPos).length ≤ ((List.range' 1 n).filter isDataPos).length := by
  have hsplit : List.range' 1 n = List.range' 1 t ++ List.range' (1 + t) (n - t) := by
    rw [List.range'_append_1]; congr 1; omega
  rw [hsplit, List.filter_append, List.length_append]
  omega

end Hamming

namespace Hamming

theorem isParityPos_iff_test (i : Nat) (hi : 1 ≤ i) :
    i &&& (i - 1) = 0 ↔ IsPowerOfTwo i := by
  rw [and_pred_eq_zero_iff i hi, isPowerOfTwo_iff]

/-- The loop body at a parity position. -/
theorem encodeStep_parity (D : List Char) (pkt : List Int) (idx i : Nat)
    (h1 : 1 ≤ i) (h2 : i ≤ pkt.length) (hp : IsPowerOfTwo i) :
    encodeStep D (pkt, idx) i = some (pkt.set (i - 1) 0, idx) := by
  have hlt : i - 1 < pkt.length := by omega
  unfold encodeStep
  rw [if_pos ((isParityPos_iff_test i h1).mpr hp)]
  simp only [vecSet, if_pos hlt, Option.map_some']

/-- The loop body at a data position, while data bits remain. -/
theorem encodeStep_data (D : List Char) (pkt : List Int) (idx i : Nat)
    (h1 : 1 ≤ i) (h2 : i ≤ pkt.length) (hp : ¬ IsPowerOfTwo i) (hidx : idx < D.length) :
    encodeStep D (pkt, idx) i = some (pkt.set (i - 1) (bitOf D[idx]), idx + 1) := by
  have hlt : i - 1 < pkt.length := by omega
  unfold encodeStep
  rw [if_neg (fun h => hp ((isParityPos_iff_test i h1).mp h))]
  simp only [List.getElem?_eq_getElem hidx, vecSet, if_pos hlt, Option.map_some', bitOf]

theorem map_getD_set_before (pkt : List Int) (t : Nat) (v : Int) (l : List Nat)
    (hl : ∀ i ∈ l, 1 ≤ i ∧ i ≤ t) :
    l.map (fun i => (pkt.set t v).getD (i - 1) 0) = l.map (fun i => pkt.getD (i - 1) 0) := by
  apply List.map_congr_left
  intro i hi
  have := hl i hi
  exact getD_set_other pkt t (i - 1) v (by omega)

/-- Invariant of the placement loop after the positions `1 .. t`. -/
theorem encodeLoop_upto (D : List Char) (n : Nat)
    (hn : ((List.range' 1 n).filter isDataPos).length ≤ D.length) :
    ∀ t, t ≤ n → ∃ pkt : List Int,
      (List.range' 1 t).foldlM (encodeStep D) (List.replicate n 0, 0)
        = some (pkt, ((List.range' 1 t).filter isDataPos).length) ∧
      pkt.length = n ∧
      (∀ i, 1 ≤ i → (IsPowerOfTwo i ∨ t < i) → pkt.getD (i - 1) 0 = 0) ∧
      ((List.range' 1 t).filter isDataPos).map (fun i => pkt.getD (i - 1) 0)
        = (D.take ((List.range' 1 t).filter isDataPos).length).map bitOf ∧
      (IsBinary D → IsBitVector pkt) := by
  intro t
  induction t with
  | zero =>
    intro _
    refine ⟨List.replicate n 0, by simp, by simp, ?_, by simp, ?_⟩
    · intro i _ _
      rw [List.getD_eq_getElem?_getD]
      by_cases h : i - 1 < n
      · simp [List.getElem?_replicate, h]
      · simp [List.getElem?_replicate, h]
    · intro _ b hb
      left; exact (List.mem_replicate.mp hb).2
  | succ t ih =>
    intro ht
    obtain ⟨pkt, hrun, hlen, hzero, hdata, hbit⟩ := ih (by omega)
    have hmem : ∀ i ∈ (List.range' 1 t).filter isDataPos, 1 ≤ i ∧ i ≤ t := by
      intro i hi
      have := (List.mem_filter.mp hi).1
      rw [List.mem_range'_1] at this
      omega
    rw [List.range'_1_concat, List.foldlM_append, hrun, List.filter_append]
    simp only [Option.bind_eq_bind, Option.some_bind, List.foldlM_cons, List.foldlM_nil]
    by_cases hp : IsPowerOfTwo (1 + t)
    · have hneg : ¬ isDataPos (1 + t) = true := by unfold isDataPos; simp [hp]
      rw [List.filter_cons_of_neg hneg]
      refine ⟨pkt.set t 0, ?_, by rw [List.length_set, hlen], ?_, ?_, ?_⟩
      · rw [encodeStep_parity D pkt _ (1 + t) (by omega) (by omega) hp]
        simp
      · intro i hi1 hi
        by_cases hit : i - 1 = t
        · rw [hit, getD_set_self pkt t 0 (by omega)]
        · rw [getD_set_other pkt t (i - 1) 0 (fun h => hit h.symm)]
          rcases hi with h | h
          · exact hzero i hi1 (Or.inl h)
          · exact hzero i hi1 (Or.inr (by omega))
      · simp only [List.filter_nil, List.append_nil]
        rw [map_getD_set_before pkt t 0 _ hmem]
        exact hdata
      · intro hD
        exact isBitVector_set pkt t 0 (hbit hD) (Or.inl rfl)
    · have hpos : isDataPos (1 + t) = true := by unfold isDataPos; simp [hp]
      have hidx : ((List.range' 1 t).filter isDataPos).length < D.length := by
        have hm := data_count_mono (Nat.succ_le_of_lt (Nat.lt_of_succ_le ht))
        rw [List.range'_1_concat, List.filter_append, List.length_append,
          List.filter_cons_of_pos hpos] at hm
        simp only [List.filter_nil, List.length_cons, List.length_nil] at hm
        omega
      rw [List.filter_cons_of_pos hpos]
      refine ⟨pkt.set t (bitOf D[((List.range' 1 t).filter isDataPos).length]), ?_,
        by rw [List.length_set, hlen], ?_, ?_, ?_⟩
      · rw [encodeStep_data D pkt _ (1 + t) (by omega) (by omega) hp hidx]
        simp
      · intro i hi1 hi
        have hit : i - 1 ≠ t := by
          rcases hi with h | h
          · intro hc
            have : i = 1 + t := by omega
            rw [this] at h; exact hp h
          · omega
        rw [getD_set_other pkt t (i - 1) _ (fun h => hit h.symm)]
        rcases hi with h | h
        · exact hzero i hi1 (Or.inl h)
        · exact hzero i hi1 (Or.inr (by omega))
      · simp only [List.filter_nil, List.map_append, List.map_cons, List.map_nil,
          List.length_append, List.length_cons, List.length_nil]
        rw [map_getD_set_before pkt t _ _ hmem, hdata, Nat.add_sub_cancel_left,
          getD_set_self pkt t _ (by omega), Nat.zero_add]
        rw [List.take_succ, List.getElem?_eq_getElem hidx]
        simp only [Option.toList, List.map_append, List.map_cons, List.map_nil]
      · intro hD
        apply isBitVector_set pkt t _ (hbit hD)
        have hc := hD _ (List.getElem_mem hidx)
        rcases hc with h | h
        · left; rw [h]; rfl
        · right; rw [h]; rfl

end Hamming

/-! ## Encoder and decoder: the contract -/

namespace Hamming

/-- Every parity position `2^i`, `i < r`, lies inside the packet of length `m + r`. -/
theorem parity_pos_le (m i : Nat) (hi : i < determine_redundant_bits m) :
    2 ^ i ≤ m + determine_redundant_bits m := by
  obtain ⟨_, h2⟩ := drb_spec m
  have h := h2 (determine_redundant_bits m - 1) (by omega)
  have hle : 2 ^ i ≤ 2 ^ (determine_redundant_bits m - 1) :=
    Nat.pow_le_pow_right (by decide) (by omega)
  omega

/-- The run of `encode_data`, with the final state of its loop. -/
theorem encode_data_spec (D : List Char) :
    ∃ pkt : List Int,
      encodeLoop D (D.length + determine_redundant_bits D.length) = some (pkt, D.length) ∧
      encode_data D = some (pkt, determine_redundant_bits D.length) ∧
      pkt.length = D.length + determine_redundant_bits D.length ∧
      (∀ i, 1 ≤ i → IsPowerOfTwo i → pkt.getD (i - 1) 0 = 0) ∧
      ((List.range' 1 (D.length + determine_redundant_bits D.length)).filter isDataPos).map
          (fun i => pkt.getD (i - 1) 0) = D.map bitOf ∧
      (IsBinary D → IsBitVector pkt) := by
  obtain ⟨hd, _⟩ := data_count D.length
  obtain ⟨pkt, hrun, hlen, hzero, hdata, hbit⟩ :=
    encodeLoop_upto D (D.length + determine_redundant_bits D.length) (by omega)
      (D.length + determine_redundant_bits D.length) (Nat.le_refl _)
  rw [hd] at hrun hdata
  rw [List.take_length] at hdata
  refine ⟨pkt, hrun, ?_, hlen, fun i h1 hp => hzero i h1 (Or.inl hp), hdata, hbit⟩
  unfold encode_data
  simp only [encodeLoop] at hrun ⊢
  rw [hrun]; rfl

/-- The sender side: `encode_data` followed by `set_parity_bits`. -/
theorem sender_spec (D : List Char) :
    ∃ pkt0 P : List Int,
      encode_data D = some (pkt0, determine_redundant_bits D.length) ∧
      set_parity_bits pkt0 (determine_redundant_bits D.length) = some P ∧
      pkt0.length = D.length + determine_redundant_bits D.length ∧
      P.length = D.length + determine_redundant_bits D.length ∧
      (∀ i, i < determine_redundant_bits D.length → coveredOnes P i % 2 = 0) ∧
      (∀ j, 1 ≤ j → ¬ IsPowerOfTwo j → P.getD (j - 1) 0 = pkt0.getD (j - 1) 0) ∧
      (IsBinary D → IsBitVector P) := by
  obtain ⟨pkt0, _, henc, hlen, _, _, hbit⟩ := encode_data_spec D
  obtain ⟨P, hset, hlenP, hev, hsame, hbitP⟩ :=
    set_parity_bits_spec pkt0 (determine_redundant_bits D.length) (by
      intro i hi; rw [hlen]; exact parity_pos_le D.length i hi)
  refine ⟨pkt0, P, henc, hset, hlen, by rw [hlenP, hlen], hev, ?_, fun h => hbitP (hbit h)⟩
  intro j hj hnp
  apply hsame j hj
  intro i _ hji
  exact hnp ⟨i, by rw [hji]; exact Nat.lt_two_pow i, hji⟩

/-- A packet whose first `r` checks are all even has syndrome 0. -/
theorem syndromeValue_clean (P : List Int) (r : Nat)
    (hev : ∀ i, i < r → coveredOnes P i % 2 = 0) : syndromeValue P r = 0 := by
  unfold syndromeValue
  apply List.sum_eq_zero
  intro x hx
  obtain ⟨i, hi, rfl⟩ := List.mem_map.mp hx
  rw [hev i (List.mem_range.mp hi)]; simp

theorem int_xor_bit (b : Int) (hb : b = 0 ∨ b = 1) :
    (Int.xor b 1 = 0 ∨ Int.xor b 1 = 1) ∧ (Int.xor b 1 = 1 ↔ b = 0) ∧
      Int.xor (Int.xor b 1) 1 = b := by
  rcases hb with h | h <;> subst h <;> decide

/-- Flipping one bit of a bit vector flips exactly the checks that cover it. -/
theorem coveredOnes_flipBit (P : List Int) (p i : Nat) (hP : IsBitVector P)
    (h1 : 1 ≤ p) (h2 : p ≤ P.length) :
    coveredOnes (flipBit P p) i % 2
      = (coveredOnes P i + (if p.testBit i = true then 1 else 0)) % 2 := by
  have hb := isBitVector_getD P (p - 1) hP
  obtain ⟨_, hx1, _⟩ := int_xor_bit _ hb
  have h := coveredOnes_set P p i (Int.xor (P.getD (p - 1) 0) 1) h1 h2
  have hcov : coveredOne P i p = true ↔ (p.testBit i = true ∧ P.getD (p - 1) 0 = 1) := by
    unfold coveredOne
    rw [Bool.and_eq_true, decide_eq_true_iff, decide_eq_true_iff, and_two_pow_ne_zero_iff]
  have hflip : flipBit P p = P.set (p - 1) (Int.xor (P.getD (p - 1) 0) 1) := by
    unfold flipBit; rw [if_pos ⟨h1, h2⟩]
  rw [hflip]
  generalize Int.xor (P.getD (p - 1) 0) 1 = v at hx1 h
  rcases Bool.eq_false_or_eq_true (p.testBit i) with ht | ht
  · rw [if_pos ht]
    rcases hb with hb | hb
    · have c1 : ¬ coveredOne P i p = true := by rw [hcov, hb]; simp
      have c2 : p.testBit i = true ∧ v = 1 := ⟨ht, hx1.mpr hb⟩
      rw [if_neg c1, if_pos c2] at h
      omega
    · have c1 : coveredOne P i p = true := by rw [hcov]; exact ⟨ht, hb⟩
      have c2 : ¬ (p.testBit i = true ∧ v = 1) := by
        rintro ⟨_, hv⟩
        have := hx1.mp hv
        rw [hb] at this; exact absurd this (by decide)
      rw [if_pos c1, if_neg c2] at h
      omega
  · have c1 : ¬ coveredOne P i p = true := by rw [hcov, ht]; simp
    have c2 : ¬ (p.testBit i = true ∧ v = 1) := by rw [ht]; simp
    have c3 : ¬ (p.testBit i = true) := by rw [ht]; simp
    rw [if_neg c1, if_neg c2] at h
    rw [if_neg c3]
    omega

/-- The syndrome of a clean packet with bit `p` flipped is `p` itself. -/
theorem syndromeValue_flipBit (P : List Int) (p r : Nat) (hP : IsBitVector P)
    (hev : ∀ i, i < r → coveredOnes P i % 2 = 0)
    (h1 : 1 ≤ p) (h2 : p ≤ P.length) (h3 : p < 2 ^ r) :
    syndromeValue (flipBit P p) r = p := by
  have hterm : ∀ i ∈ List.range r,
      coveredOnes (flipBit P p) i % 2 * 2 ^ i = (if p.testBit i then 2 ^ i else 0) := by
    intro i hi
    have hi' := List.mem_range.mp hi
    rw [coveredOnes_flipBit P p i hP h1 h2]
    have := hev i hi'
    rcases Bool.eq_false_or_eq_true (p.testBit i) with ht | ht
    · rw [if_pos ht, ht, if_pos rfl]
      have : (coveredOnes P i + 1) % 2 = 1 := by omega
      rw [this, Nat.one_mul]
    · have c3 : ¬ (p.testBit i = true) := by rw [ht]; simp
      rw [if_neg c3, if_neg c3]
      have : (coveredOnes P i + 0) % 2 = 0 := by omega
      rw [this, Nat.zero_mul]
  unfold syndromeValue
  rw [List.map_congr_left hterm, sum_bits_eq_mod, Nat.mod_eq_of_lt h3]

/-- Flipping the same bit twice restores a bit vector. -/
theorem flipBit_flipBit (P : List Int) (p : Nat) (hP : IsBitVector P)
    (h1 : 1 ≤ p) (h2 : p ≤ P.length) : flipBit (flipBit P p) p = P := by
  have hb := isBitVector_getD P (p - 1) hP
  obtain ⟨_, _, hx2⟩ := int_xor_bit _ hb
  have hlt : p - 1 < P.length := by omega
  have hflip : flipBit P p = P.set (p - 1) (Int.xor (P.getD (p - 1) 0) 1) := by
    unfold flipBit; rw [if_pos ⟨h1, h2⟩]
  rw [hflip]
  unfold flipBit
  rw [if_pos ⟨h1, by rw [List.length_set]; exact h2⟩, getD_set_self P _ _ hlt, hx2,
    List.set_set]
  apply List.ext_getElem?
  intro k
  by_cases hk : p - 1 = k
  · rw [← hk, List.getElem?_set_self hlt, getElem?_eq_some_getD P _ hlt]
  · rw [List.getElem?_set_ne hk]

end Hamming

namespace Hamming

/-- C8 (packet layout).  For every data string `D` of length `m`, `encode_data` stores
`r = determine_redundant_bits m` and returns a packet of length `n = m + r`; every
position of `1 .. n` that is a power of two holds 0; the other positions, read in
increasing order, hold the bits of `D` in order; exactly `r` positions of `1 .. n`
are powers of two; and the placement loop ends with `data_idx = m` without ever
reading past the end of `D`. -/
theorem encode_data_layout (D : List Char) :
    ∃ pkt : List Int,
      encode_data D = some (pkt, determine_redundant_bits D.length) ∧
      encodeLoop D (D.length + determine_redundant_bits D.length) = some (pkt, D.length) ∧
      pkt.length = D.length + determine_redundant_bits D.length ∧
      (∀ i, 1 ≤ i → i ≤ D.length + determine_redundant_bits D.length →
        (∃ k, i = 2 ^ k) → pkt[i - 1]? = some 0) ∧
      ((List.range' 1 (D.length + determine_redundant_bits D.length)).filter
          (fun i => decide (¬ ∃ k, k < i ∧ i = 2 ^ k))).map (fun i => pkt.getD (i - 1) 0)
        = D.map (fun c => (c.toNat : Int) - (('0').toNat : Int)) ∧
      ((List.range' 1 (D.length + determine_redundant_bits D.length)).filter
          (fun i => decide (∃ k, k < i ∧ i = 2 ^ k))).length
        = determine_redundant_bits D.length := by
  obtain ⟨pkt, hloop, henc, hlen, hzero, hdata, _⟩ := encode_data_spec D
  obtain ⟨_, hcount⟩ := data_count D.length
  refine ⟨pkt, henc, hloop, hlen, ?_, ?_, ?_⟩
  · intro i h1 h2 hp
    rw [getElem?_eq_some_getD pkt (i - 1) (by omega),
      hzero i h1 ((isPowerOfTwo_iff i).mpr hp)]
  · have hpred : (fun i => decide (¬ ∃ k, k < i ∧ i = 2 ^ k)) = isDataPos := by
      funext i; simp only [isDataPos, IsPowerOfTwo, decide_not]
    rw [hpred, hdata]; rfl
  · have hpred : (fun i => decide (∃ k, k < i ∧ i = 2 ^ k)) = isParityPos := by
      funext i; simp [isParityPos, IsPowerOfTwo]
    rw [hpred, hcount]

/-- C9 (even parity).  For every data string `D`, with `r = determine_redundant_bits m`
and `P = set_parity_bits(encode_data(D, r), r)`: for every check `i < r` the number of
1-bits of `P` at the positions `j` of `1 .. n` with `j AND 2^i` non-zero, the parity
position included, is even, and `P` agrees with the packet of `encode_data` at every
position that is not a power of two. -/
theorem set_parity_bits_even (D : List Char) :
    ∃ pkt0 P : List Int,
      encode_data D = some (pkt0, determine_redundant_bits D.length) ∧
      set_parity_bits pkt0 (determine_redundant_bits D.length) = some P ∧
      P.length = D.length + determine_redundant_bits D.length ∧
      (∀ i, i < determine_redundant_bits D.length → Even (coveredOnes P i)) ∧
      (∀ j, 1 ≤ j → j ≤ D.length + determine_redundant_bits D.length →
        (¬ ∃ k, j = 2 ^ k) → P[j - 1]? = pkt0[j - 1]?) := by
  obtain ⟨pkt0, P, henc, hset, hlen0, hlen, hev, hsame, _⟩ := sender_spec D
  refine ⟨pkt0, P, henc, hset, hlen, ?_, ?_⟩
  · intro i hi
    exact Nat.even_iff.mpr (hev i hi)
  · intro j h1 h2 hnp
    rw [getElem?_eq_some_getD P (j - 1) (by omega),
      getElem?_eq_some_getD pkt0 (j - 1) (by omega),
      hsame j h1 (fun h => hnp ((isPowerOfTwo_iff j).mp h))]

/-- C5 (clean packets decode as error-free).  For every data string `D`, with
`r = determine_redundant_bits m` and `P = set_parity_bits(encode_data(D, r), r)`,
`decode_and_correct_error(P, r)` returns 0 and leaves `P` unchanged. -/
theorem decode_clean (D : List Char) :
    ∃ pkt0 P : List Int,
      encode_data D = some (pkt0, determine_redundant_bits D.length) ∧
      set_parity_bits pkt0 (determine_redundant_bits D.length) = some P ∧
      decode_and_correct_error P (determine_redundant_bits D.length) = some (P, 0) := by
  obtain ⟨pkt0, P, henc, hset, _, _, hev, _, _⟩ := sender_spec D
  refine ⟨pkt0, P, henc, hset, ?_⟩
  rw [decode_eq, syndromeValue_clean P _ hev]
  rfl

/-- C1 (single-error correction).  For every binary data string `D` of length `m`
(any `m`; a position `p` exists only when `m ≥ 1`), with `r = determine_redundant_bits m`,
`P = set_parity_bits(encode_data(D, r), r)` and `n = m + r`, and every position `p`
with `1 ≤ p ≤ n`: `decode_and_correct_error` on `P` with bit `p` complemented returns
`p` and leaves the packet equal to `P`. -/
theorem decode_corrects_single_error (D : List Char) (p : Nat) (hD : IsBinary D)
    (hp1 : 1 ≤ p)
    (hp2 : p ≤ D.length + determine_redundant_bits D.length) :
    ∃ pkt0 P : List Int,
      encode_data D = some (pkt0, determine_redundant_bits D.length) ∧
      set_parity_bits pkt0 (determine_redundant_bits D.length) = some P ∧
      decode_and_correct_error (flipBit P p) (determine_redundant_bits D.length)
        = some (P, p) := by
  obtain ⟨pkt0, P, henc, hset, _, hlen, hev, _, hbit⟩ := sender_spec D
  obtain ⟨hr, _⟩ := drb_spec D.length
  have hP := hbit hD
  have hpl : p ≤ P.length := by rw [hlen]; exact hp2
  refine ⟨pkt0, P, henc, hset, ?_⟩
  rw [decode_eq, syndromeValue_flipBit P p _ hP hev hp1 hpl (by omega),
    flipBit_flipBit P p hP hp1 hpl]

/-- Witness of C1: data `101100011`, error at position 7. -/
theorem decode_corrects_single_error_witness :
    IsBinary ['1', '0', '1', '1', '0', '0', '0', '1', '1'] ∧ 1 ≤ 7 ∧
    7 ≤ ['1', '0', '1', '1', '0', '0', '0', '1', '1'].length
          + determine_redundant_bits ['1', '0', '1', '1', '0', '0', '0', '1', '1'].length ∧
    ∃ pkt0 P : List Int,
      encode_data ['1', '0', '1', '1', '0', '0', '0', '1', '1']
        = some (pkt0,
            determine_redundant_bits ['1', '0', '1', '1', '0', '0', '0', '1', '1'].length) ∧
      set_parity_bits pkt0
          (determine_redundant_bits ['1', '0', '1', '1', '0', '0', '0', '1', '1'].length)
        = some P ∧
      decode_and_correct_error (flipBit P 7)
          (determine_redundant_bits ['1', '0', '1', '1', '0', '0', '0', '1', '1'].length)
        = some (P, 7) :=
  ⟨by decide, by decide, by simp [determine_redundant_bits, redundantLoop],
    decode_corrects_single_error ['1', '0', '1', '1', '0', '0', '0', '1', '1'] 7
      (by decide) (by decide) (by simp [determine_redundant_bits, redundantLoop])⟩

/-- C10 (reference trace).  For the data string `101100011` (`m = 9`), `encode_data`
yields `r = 4` and a packet of length 13, `set_parity_bits` yields `1110011000011`,
and `decode_and_correct_error` on that packet with `r = 4` returns 0 (and leaves the
packet as it is). -/
theorem reference_trace :
    encode_data ['1', '0', '1', '1', '0', '0', '0', '1', '1']
      = some ([0, 0, 1, 0, 0, 1, 1, 0, 0, 0, 0, 1, 1], 4) ∧
    ([0, 0, 1, 0, 0, 1, 1, 0, 0, 0, 0, 1, 1] : List Int).length = 13 ∧
    set_parity_bits [0, 0, 1, 0, 0, 1, 1, 0, 0, 0, 0, 1, 1] 4
      = some [1, 1, 1, 0, 0, 1, 1, 0, 0, 0, 0, 1, 1] ∧
    decode_and_correct_error [1, 1, 1, 0, 0, 1, 1, 0, 0, 0, 0, 1, 1] 4
      = some ([1, 1, 1, 0, 0, 1, 1, 0, 0, 0, 0, 1, 1], 0) := by
  have hr : determine_redundant_bits 9 = 4 := by
    simp [determine_redundant_bits, redundantLoop]
  refine ⟨?_, by decide, by decide, by decide⟩
  unfold encode_data
  simp only [List.length_cons, List.length_nil, Nat.zero_add, Nat.reduceAdd, hr]
  decide

end Hamming

/-! ## Strings: checked access -/

theorem strAt_lt (s : List Char) (i : Nat) (h : i < s.length) : strAt s i = some s[i] := by
  unfold strAt
  rw [if_pos h, List.getElem?_eq_getElem h]

theorem isBinary_append {u v : List Char} : IsBinary (u ++ v) ↔ IsBinary u ∧ IsBinary v := by
  unfold IsBinary
  constructor
  · intro h
    exact ⟨fun c hc => h c (List.mem_append_left v hc), fun c hc => h c (List.mem_append_right u hc)⟩
  · rintro ⟨h1, h2⟩ c hc
    rcases List.mem_append.mp hc with h | h
    · exact h1 c h
    · exact h2 c h

theorem isBinary_cons {c : Char} {s : List Char} :
    IsBinary (c :: s) ↔ (c = '0' ∨ c = '1') ∧ IsBinary s := by
  unfold IsBinary
  constructor
  · intro h
    exact ⟨h c (List.mem_cons_self c s), fun x hx => h x (List.mem_cons_of_mem c hx)⟩
  · rintro ⟨h1, h2⟩ x hx
    rcases List.mem_cons.mp hx with h | h
    · rw [h]; exact h1
    · exact h2 x h

theorem isBinary_replicate (n : Nat) : IsBinary (List.replicate n '0') := by
  intro c hc
  left; exact (List.mem_replicate.mp hc).2

theorem isBinary_take {s : List Char} (n : Nat) (h : IsBinary s) : IsBinary (s.take n) :=
  fun c hc => h c (List.mem_of_mem_take hc)

theorem isBinary_drop {s : List Char} (n : Nat) (h : IsBinary s) : IsBinary (s.drop n) :=
  fun c hc => h c (List.mem_of_mem_drop hc)

theorem isBinary_zipWith_xorChar (a b : List Char) : IsBinary (List.zipWith xorChar a b) := by
  induction a generalizing b with
  | nil => intro c hc; simp at hc
  | cons x a ih =>
    cases b with
    | nil => intro c hc; simp at hc
    | cons y b =>
      rw [List.zipWith_cons_cons, isBinary_cons]
      refine ⟨?_, ih b⟩
      unfold xorChar
      split
      · left; rfl
      · right; rfl

namespace Crc

/-- On strings of equal length `xor_op` is the character-wise `xorChar`. -/
theorem xor_op_upto (a b : List Char) (hab : a.length ≤ b.length) :
    ∀ k, k ≤ a.length →
      (List.range k).foldlM
        (fun result i =>
          (strAt a i).bind (fun x =>
            (strAt b i).map (fun y => result ++ [if x = y then '0' else '1'])))
        []
        = some (List.zipWith xorChar (a.take k) (b.take k)) := by
  intro k
  induction k with
  | zero => intro _; simp
  | succ k ih =>
    intro hk
    have hka : k < a.length := by omega
    have hkb : k < b.length := by omega
    rw [List.range_succ, List.foldlM_append, ih (by omega)]
    simp only [Option.bind_eq_bind, Option.some_bind, List.foldlM_cons, List.foldlM_nil,
      strAt_lt a k hka, strAt_lt b k hkb, Option.map_some']
    rw [List.take_succ, List.take_succ, List.getElem?_eq_getElem hka,
      List.getElem?_eq_getElem hkb]
    simp only [Option.toList]
    rw [List.zipWith_append]
    · rfl
    · simp [Nat.min_eq_left (Nat.le_of_lt hka), Nat.min_eq_left (Nat.le_of_lt hkb)]

theorem xor_op_eq (a b : List Char) (hab : a.length = b.length) :
    xor_op a b = some (List.zipWith xorChar a b) := by
  unfold xor_op
  rw [xor_op_upto a b (by omega) a.length (Nat.le_refl _), List.take_length]
  have : b.take a.length = b := by rw [hab, List.take_length]
  rw [this]

end Crc

/-! ## Bit strings as polynomials over GF(2) -/

open Polynomial

theorem bitPoly_cons (c : Char) (s : List Char) :
    bitPoly (c :: s) = C (if c = '1' then 1 else 0) * X ^ s.length + bitPoly s := rfl

theorem bitPoly_append (u v : List Char) :
    bitPoly (u ++ v) = bitPoly u * X ^ v.length + bitPoly v := by
  induction u with
  | nil => simp [bitPoly]
  | cons c u ih =>
    rw [List.cons_append, bitPoly_cons, bitPoly_cons, ih, List.length_append]
    ring

theorem bitPoly_replicate_zero (n : Nat) : bitPoly (List.replicate n '0') = 0 := by
  induction n with
  | zero => rfl
  | succ n ih =>
    rw [List.replicate_succ, bitPoly_cons, ih]
    simp

theorem poly_add_self (p : (ZMod 2)[X]) : p + p = 0 := CharTwo.add_self_eq_zero p

theorem bitPoly_zipWith_xorChar (a b : List Char) (hab : a.length = b.length)
    (ha : IsBinary a) (hb : IsBinary b) :
    bitPoly (List.zipWith xorChar a b) = bitPoly a + bitPoly b := by
  induction a generalizing b with
  | nil =>
    cases b with
    | nil => simp [bitPoly]
    | cons y b => simp at hab
  | cons x a ih =>
    cases b with
    | nil => simp at hab
    | cons y b =>
      have hlen : a.length = b.length := by simpa using hab
      obtain ⟨hx, ha'⟩ := isBinary_cons.mp ha
      obtain ⟨hy, hb'⟩ := isBinary_cons.mp hb
      rw [List.zipWith_cons_cons, bitPoly_cons, bitPoly_cons, bitPoly_cons, ih b hlen ha' hb',
        List.length_zipWith, hlen, Nat.min_self]
      have hc : (C (if xorChar x y = '1' then (1 : ZMod 2) else 0) : (ZMod 2)[X])
          = C (if x = '1' then 1 else 0) + C (if y = '1' then 1 else 0) := by
        rw [← C_add]
        congr 1
        rcases hx with hx | hx <;> rcases hy with hy | hy <;> subst hx <;> subst hy <;> decide
      rw [hc]
      ring

theorem bitPoly_degree_lt (s : List Char) : (bitPoly s).degree < s.length := by
  induction s with
  | nil => simp [bitPoly]
  | cons c s ih =>
    rw [bitPoly_cons, List.length_cons]
    apply lt_of_le_of_lt (degree_add_le _ _)
    apply max_lt
    · apply lt_of_le_of_lt (degree_C_mul_X_pow_le _ _)
      exact_mod_cast Nat.lt_succ_self _
    · apply lt_trans ih
      exact_mod_cast Nat.lt_succ_self _

/-- A generator with leading bit 1 denotes a monic polynomial of degree `len - 1`. -/
theorem bitPoly_leading_one (s : List Char) :
    (bitPoly ('1' :: s)).Monic ∧ (bitPoly ('1' :: s)).degree = s.length := by
  have h : bitPoly ('1' :: s) = X ^ s.length + bitPoly s := by
    rw [bitPoly_cons]; simp
  rw [h]
  refine ⟨monic_X_pow_add (bitPoly_degree_lt s), ?_⟩
  rw [degree_add_eq_left_of_degree_lt (by rw [degree_X_pow]; exact bitPoly_degree_lt s),
    degree_X_pow]

/-- A binary string denotes the zero polynomial only when all its characters are `'0'`. -/
theorem bitPoly_eq_zero_iff (s : List Char) (hs : IsBinary s) :
    bitPoly s = 0 ↔ ∀ c ∈ s, c = '0' := by
  induction s with
  | nil => simp [bitPoly]
  | cons c s ih =>
    obtain ⟨hc, hs'⟩ := isBinary_cons.mp hs
    rw [bitPoly_cons]
    constructor
    · intro h
      have hcoef := congrArg (fun p => coeff p s.length) h
      simp only [coeff_add, coeff_C_mul, coeff_X_pow, if_true, mul_one, coeff_zero] at hcoef
      rw [coeff_eq_zero_of_degree_lt (bitPoly_degree_lt s), add_zero] at hcoef
      have hc0 : c = '0' := by
        rcases hc with hc | hc
        · exact hc
        · rw [hc] at hcoef; simp at hcoef
      rw [hc0] at h
      simp at h
      intro x hx
      rcases List.mem_cons.mp hx with hx | hx
      · rw [hx]; exact hc0
      · exact (ih hs').mp h x hx
    · intro h
      have hc0 : c = '0' := h c (List.mem_cons_self c s)
      have hs0 : bitPoly s = 0 := (ih hs').mpr (fun x hx => h x (List.mem_cons_of_mem c hx))
      rw [hc0, hs0]
      simp

/-! ## The division loop of `calculateCRC` -/

namespace Crc

theorem bitPoly_zero_cons (s : List Char) : bitPoly ('0' :: s) = bitPoly s := by
  rw [bitPoly_cons]
  have : ¬ ('0' : Char) = '1' := by decide
  rw [if_neg this]
  simp

/-- One step of the division at the first position after a block `Z`, when the
bit there is 1: the window is XORed with the generator, and its new leading
character is `'0'`. -/
theorem divideStep_one (G' Z rest' : List Char) (hlen : G'.length ≤ rest'.length) :
    divideStep ('1' :: G') (Z ++ '1' :: rest') Z.length
      = some ((Z ++ ['0'])
          ++ (List.zipWith xorChar (rest'.take G'.length) G' ++ rest'.drop G'.length)) := by
  have hlt : Z.length < (Z ++ '1' :: rest').length := by simp
  have hat : strAt (Z ++ '1' :: rest') Z.length = some '1' := by
    unfold strAt
    rw [if_pos hlt, List.getElem?_append_right (Nat.le_refl _), Nat.sub_self,
      List.getElem?_cons_zero]
  have hsub : substr (Z ++ '1' :: rest') Z.length ('1' :: G').length
      = some ('1' :: rest'.take G'.length) := by
    unfold substr
    rw [if_pos (by simp), List.drop_left]
    simp
  have hx : xor_op ('1' :: rest'.take G'.length) ('1' :: G')
      = some ('0' :: List.zipWith xorChar (rest'.take G'.length) G') := by
    rw [xor_op_eq _ _ (by simp [Nat.min_eq_left hlen])]
    rfl
  have hrep : strReplace (Z ++ '1' :: rest') Z.length ('1' :: G').length
      ('0' :: List.zipWith xorChar (rest'.take G'.length) G')
      = some ((Z ++ ['0'])
          ++ (List.zipWith xorChar (rest'.take G'.length) G' ++ rest'.drop G'.length)) := by
    unfold strReplace
    rw [if_pos (by simp), List.take_left, List.drop_append]
    simp
  unfold divideStep
  rw [hat]
  simp only [Option.some_bind, if_true, hsub, hx, hrep]

/-- One step of the division when the bit at the current position is not 1:
the dividend is left as it is. -/
theorem divideStep_zero (G Z rest' : List Char) (c : Char) (hc : c ≠ '1') :
    divideStep G (Z ++ c :: rest') Z.length = some (Z ++ c :: rest') := by
  have hlt : Z.length < (Z ++ c :: rest').length := by simp
  have hat : strAt (Z ++ c :: rest') Z.length = some c := by
    unfold strAt
    rw [if_pos hlt, List.getElem?_append_right (Nat.le_refl _), Nat.sub_self,
      List.getElem?_cons_zero]
  unfold divideStep
  rw [hat]
  simp only [Option.some_bind, if_neg hc]

/-- Invariant of the division loop after `cnt` steps on a binary working dividend
`w`, for a binary generator with leading bit 1: the first `cnt` characters are
`'0'`, the rest is binary, and the rest differs from `w` by a multiple of the
generator polynomial. -/
theorem divideLoop_upto (G' w : List Char) (hG : IsBinary G') (hw : IsBinary w) :
    ∀ cnt, cnt + G'.length ≤ w.length → ∃ rest : List Char,
      (List.range cnt).foldlM (divideStep ('1' :: G')) w
        = some (List.replicate cnt '0' ++ rest) ∧
      rest.length + cnt = w.length ∧ IsBinary rest ∧
      ∃ Q : Polynomial (ZMod 2), bitPoly w = bitPoly rest + bitPoly ('1' :: G') * Q := by
  intro cnt
  induction cnt with
  | zero =>
    intro _
    exact ⟨w, by simp, by simp, hw, 0, by simp⟩
  | succ cnt ih =>
    intro hcnt
    obtain ⟨rest, hrun, hlen, hbin, Q, hQ⟩ := ih (by omega)
    rw [List.range_succ, List.foldlM_append, hrun]
    simp only [Option.bind_eq_bind, Option.some_bind, List.foldlM_cons, List.foldlM_nil]
    cases rest with
    | nil => simp at hlen; omega
    | cons c rest' =>
      have hl' : G'.length ≤ rest'.length := by simp at hlen; omega
      obtain ⟨hc, hbin'⟩ := isBinary_cons.mp hbin
      have hzlen : (List.replicate cnt '0').length = cnt := List.length_replicate _ _
      rcases hc with hc | hc
      · -- leading bit 0: the window just advances
        subst hc
        refine ⟨rest', ?_, by simp at hlen ⊢; omega, hbin', Q, ?_⟩
        · have h := divideStep_zero ('1' :: G') (List.replicate cnt '0') rest' '0' (by decide)
          rw [hzlen] at h
          rw [h, List.replicate_succ']
          simp
        · rw [hQ, bitPoly_zero_cons]
      · -- leading bit 1: XOR with the generator
        subst hc
        refine ⟨List.zipWith xorChar (rest'.take G'.length) G' ++ rest'.drop G'.length, ?_, ?_,
          ?_, Q + X ^ (rest'.length - G'.length), ?_⟩
        · have h := divideStep_one G' (List.replicate cnt '0') rest' hl'
          rw [hzlen] at h
          rw [h, List.replicate_succ']
          rfl
        · simp at hlen ⊢
          rw [Nat.min_eq_left hl']; omega
        · exact isBinary_append.mpr ⟨isBinary_zipWith_xorChar _ _, isBinary_drop _ hbin'⟩
        · have htake : (rest'.take G'.length).length = G'.length := by
            simp [Nat.min_eq_left hl']
          have hsplit : bitPoly rest'
              = bitPoly (rest'.take G'.length) * X ^ (rest'.length - G'.length)
                + bitPoly (rest'.drop G'.length) := by
            conv_lhs => rw [← List.take_append_drop G'.length rest']
            rw [bitPoly_append, List.length_drop]
          have hone : bitPoly ('1' :: rest') = X ^ rest'.length + bitPoly rest' := by
            rw [bitPoly_cons]; simp
          have hgen : bitPoly ('1' :: G') = X ^ G'.length + bitPoly G' := by
            rw [bitPoly_cons]; simp
          have hpow : (X : Polynomial (ZMod 2)) ^ rest'.length
              = X ^ G'.length * X ^ (rest'.length - G'.length) := by
            rw [← pow_add]; congr 1; omega
          rw [hQ, hone, bitPoly_append,
            bitPoly_zipWith_xorChar _ _ htake (isBinary_take _ hbin') hG, List.length_drop,
            hsplit, hgen, hpow]
          have h3 := poly_add_self (bitPoly G' * X ^ (rest'.length - G'.length))
          linear_combination (-1 : Polynomial (ZMod 2)) * h3

end Crc

namespace Crc

/-- Coefficients of the denoted polynomial: character `j` of `s` is the coefficient
of `x^(len - 1 - j)`. -/
theorem coeff_bitPoly (s : List Char) : ∀ (j : Nat) (h : j < s.length),
    (bitPoly s).coeff (s.length - 1 - j) = if s[j] = '1' then 1 else 0 := by
  induction s with
  | nil => intro j h; simp at h
  | cons c s ih =>
    intro j h
    cases j with
    | zero =>
      rw [bitPoly_cons]
      simp only [List.length_cons, Nat.add_sub_cancel, Nat.sub_zero, coeff_add, coeff_C_mul,
        coeff_X_pow, if_true, mul_one, List.getElem_cons_zero]
      rw [coeff_eq_zero_of_degree_lt (bitPoly_degree_lt s), add_zero]
    | succ j =>
      have hj : j < s.length := by simpa using h
      have hidx : (c :: s).length - 1 - (j + 1) = s.length - 1 - j := by
        simp only [List.length_cons]; omega
      have hne : ¬ (s.length - 1 - j = s.length) := by omega
      rw [hidx, bitPoly_cons]
      simp only [coeff_add, coeff_C_mul, coeff_X_pow, if_neg hne, mul_zero, zero_add,
        List.getElem_cons_succ]
      exact ih j hj

/-- A generator with a second non-zero term divides no power of `x`. -/
theorem generator_not_dvd_X_pow (G' : List Char) (j : Nat) (hj : j < G'.length)
    (hone : G'[j] = '1') (e : Nat) :
    ¬ bitPoly ('1' :: G') ∣ (X : Polynomial (ZMod 2)) ^ e := by
  rintro ⟨Q, hQ⟩
  obtain ⟨hmonic, hdeg⟩ := bitPoly_leading_one G'
  have hG0 : bitPoly ('1' :: G') ≠ 0 := hmonic.ne_zero
  have hQ0 : Q ≠ 0 := by
    intro h
    rw [h, mul_zero] at hQ
    exact pow_ne_zero e X_ne_zero hQ
  have hnd : (bitPoly ('1' :: G')).natDegree = G'.length :=
    natDegree_eq_of_degree_eq_some hdeg
  have h1 := congrArg natDegree hQ
  have h2 := congrArg natTrailingDegree hQ
  rw [natDegree_X_pow, natDegree_mul hG0 hQ0, hnd] at h1
  rw [natTrailingDegree_X_pow, natTrailingDegree_mul hG0 hQ0] at h2
  have h3 := natTrailingDegree_le_natDegree Q
  have hcoef : (bitPoly ('1' :: G')).coeff (G'.length - 1 - j) ≠ 0 := by
    have hc := coeff_bitPoly ('1' :: G') (j + 1) (by simpa using hj)
    have hidx : ('1' :: G').length - 1 - (j + 1) = G'.length - 1 - j := by
      simp only [List.length_cons]; omega
    rw [hidx] at hc
    rw [hc]
    simp [hone]
  have h4 := natTrailingDegree_le_of_ne_zero hcoef
  omega

theorem length_flipChar (s : List Char) : ∀ p, (flipChar s p).length = s.length := by
  induction s with
  | nil => intro p; rfl
  | cons c s ih =>
    intro p
    cases p with
    | zero => rfl
    | succ p => simp [flipChar, ih p]

theorem isBinary_flipChar (s : List Char) (hs : IsBinary s) :
    ∀ p, IsBinary (flipChar s p) := by
  induction s with
  | nil => intro p; exact hs
  | cons c s ih =>
    intro p
    obtain ⟨hc, hs'⟩ := isBinary_cons.mp hs
    cases p with
    | zero =>
      simp only [flipChar]
      apply isBinary_cons.mpr
      refine ⟨?_, hs'⟩
      split
      · left; rfl
      · right; rfl
    | succ p =>
      simp only [flipChar]
      exact isBinary_cons.mpr ⟨hc, ih hs' p⟩

/-- Complementing character `p` of a binary string adds `x^(len - 1 - p)`. -/
theorem bitPoly_flipChar (s : List Char) (hs : IsBinary s) : ∀ p, p < s.length →
    bitPoly (flipChar s p) = bitPoly s + X ^ (s.length - 1 - p) := by
  induction s with
  | nil => intro p h; simp at h
  | cons c s ih =>
    intro p h
    obtain ⟨hc, hs'⟩ := isBinary_cons.mp hs
    cases p with
    | zero =>
      simp only [flipChar, bitPoly_cons, List.length_cons, Nat.add_sub_cancel, Nat.sub_zero]
      rcases hc with hc | hc
      · subst hc
        simp
        ring
      · subst hc
        simp
        have := poly_add_self (X ^ s.length)
        linear_combination (-1 : Polynomial (ZMod 2)) * this
    | succ p =>
      have hp : p < s.length := by simpa using h
      have hidx : (c :: s).length - 1 - (p + 1) = s.length - 1 - p := by
        simp only [List.length_cons]; omega
      simp only [flipChar, bitPoly_cons]
      rw [hidx, ih hs' p hp, length_flipChar]
      ring

end Crc

/-! ## CRC: the contract of `calculateCRC` -/

namespace Crc

/-- A generator with leading bit 1 splits into that bit and a tail. -/
theorem generator_split (G : List Char) (hlead : G.head? = some '1') :
    ∃ G', G = '1' :: G' := by
  cases G with
  | nil => simp at hlead
  | cons c G' =>
    simp only [List.head?_cons, Option.some.injEq] at hlead
    exact ⟨G', by rw [hlead]⟩

/-- The complete division: over a binary working dividend `w` with at least
`k = len(G) - 1` characters, the loop over the first `len(w) - k` positions leaves
zeros followed by the `k`-bit remainder of `w(x)` modulo `G(x)`. -/
theorem divideLoop_spec (G' w : List Char) (hG : IsBinary G') (hw : IsBinary w)
    (hlen : G'.length ≤ w.length) :
    ∃ R : List Char,
      divideLoop ('1' :: G') w (w.length - G'.length)
        = some (List.replicate (w.length - G'.length) '0' ++ R) ∧
      R.length = G'.length ∧ IsBinary R ∧
      bitPoly R = bitPoly w %ₘ bitPoly ('1' :: G') := by
  obtain ⟨R, hrun, hRlen, hRbin, Q, hQ⟩ :=
    divideLoop_upto G' w hG hw (w.length - G'.length) (by omega)
  obtain ⟨hmonic, hdeg⟩ := bitPoly_leading_one G'
  have hRl : R.length = G'.length := by omega
  refine ⟨R, hrun, hRl, hRbin, ?_⟩
  have hlt : (bitPoly R).degree < (bitPoly ('1' :: G')).degree := by
    rw [hdeg, ← hRl]; exact bitPoly_degree_lt R
  exact ((div_modByMonic_unique Q (bitPoly R) hmonic ⟨hQ.symm, hlt⟩).2).symm

/-- The value of `calculateCRC` for a binary generator with leading bit 1. -/
theorem calculateCRC_spec (D G' : List Char) (hD : IsBinary D) (hG : IsBinary G') :
    ∃ R : List Char, calculateCRC D ('1' :: G') = some R ∧ R.length = G'.length ∧
      IsBinary R ∧
      bitPoly R = (bitPoly D * X ^ G'.length) %ₘ bitPoly ('1' :: G') := by
  have hw : IsBinary (D ++ List.replicate G'.length '0') :=
    isBinary_append.mpr ⟨hD, isBinary_replicate _⟩
  obtain ⟨R, hrun, hRl, hRbin, hpoly⟩ :=
    divideLoop_spec G' (D ++ List.replicate G'.length '0') hG hw (by simp)
  have hcnt : (D ++ List.replicate G'.length '0').length - G'.length = D.length := by simp
  rw [hcnt] at hrun
  refine ⟨R, ?_, hRl, hRbin, ?_⟩
  · unfold calculateCRC
    simp only [List.length_cons, Nat.add_sub_cancel]
    rw [if_neg (by omega), hrun]
    simp only [Option.some_bind, substr]
    rw [if_pos (by simp), List.drop_left' (List.length_replicate _ _), ← hRl, List.take_length]
  · rw [hpoly, bitPoly_append, bitPoly_replicate_zero, add_zero, List.length_replicate]

/-- The answer of `verify` on a binary string that is long enough: `true` exactly
when the generator polynomial divides the received polynomial. -/
theorem verify_spec (G' T : List Char) (hG : IsBinary G') (hT : IsBinary T)
    (hlen : G'.length ≤ T.length) :
    ∃ b : Bool, verify T ('1' :: G') = some b ∧
      (b = true ↔ bitPoly ('1' :: G') ∣ bitPoly T) := by
  obtain ⟨R, hrun, hRl, hRbin, hpoly⟩ := divideLoop_spec G' T hG hT hlen
  obtain ⟨hmonic, _⟩ := bitPoly_leading_one G'
  refine ⟨R.all (fun c => c = '0'), ?_, ?_⟩
  · unfold verify
    simp only [List.length_cons, Nat.add_sub_cancel]
    rw [hrun]
    simp only [Option.some_bind, substr]
    rw [if_pos (by simp), List.drop_left' (List.length_replicate _ _), ← hRl, List.take_length]
    rfl
  · rw [← modByMonic_eq_zero_iff_dvd hmonic, ← hpoly, bitPoly_eq_zero_iff R hRbin]
    simp [List.all_eq_true]

/-- The codeword `D ++ calculateCRC(D, G)` denotes a multiple of the generator. -/
theorem codeword_dvd (D G' R : List Char)
    (hR : bitPoly R = (bitPoly D * X ^ G'.length) %ₘ bitPoly ('1' :: G'))
    (hRl : R.length = G'.length) :
    bitPoly ('1' :: G') ∣ bitPoly (D ++ R) := by
  obtain ⟨hmonic, _⟩ := bitPoly_leading_one G'
  have hdiv := modByMonic_add_div (bitPoly D * X ^ G'.length) hmonic
  refine ⟨(bitPoly D * X ^ G'.length) /ₘ bitPoly ('1' :: G'), ?_⟩
  rw [bitPoly_append, hRl, hR]
  have h2 := poly_add_self ((bitPoly D * X ^ G'.length) %ₘ bitPoly ('1' :: G'))
  linear_combination h2 - hdiv

end Crc

namespace Crc

/-- C6 (polynomial remainder).  For every binary data string `D` and binary
generator `G` with leading bit `'1'` (`k = len(G) - 1`), `calculateCRC(D, G)` returns
a binary string `R` of exactly `k` characters that denotes, highest coefficient
first, the remainder of `D(x) * x^k` divided by `G(x)` over GF(2): character `j` of
`R` is `'1'` exactly when the coefficient of `x^(k-1-j)` of that remainder is 1. -/
theorem calculateCRC_remainder (D G : List Char) (hD : IsBinary D) (hG : IsBinary G)
    (hlead : G.head? = some '1') :
    ∃ R : List Char, calculateCRC D G = some R ∧ R.length = G.length - 1 ∧ IsBinary R ∧
      bitPoly R = (bitPoly D * X ^ (G.length - 1)) % bitPoly G ∧
      ∀ (j : Nat) (h : j < R.length),
        (R[j] = '1' ↔
          ((bitPoly D * X ^ (G.length - 1)) % bitPoly G).coeff (G.length - 1 - 1 - j) = 1) := by
  obtain ⟨G', rfl⟩ := generator_split G hlead
  obtain ⟨_, hG'⟩ := isBinary_cons.mp hG
  obtain ⟨hmonic, _⟩ := bitPoly_leading_one G'
  obtain ⟨R, hrun, hRl, hRbin, hpoly⟩ := calculateCRC_spec D G' hD hG'
  rw [modByMonic_eq_mod _ hmonic] at hpoly
  simp only [List.length_cons, Nat.add_sub_cancel]
  refine ⟨R, hrun, hRl, hRbin, hpoly, ?_⟩
  intro j h
  rw [← hpoly, ← hRl, coeff_bitPoly R j h]
  constructor
  · intro h1; rw [if_pos h1]
  · intro h1
    by_contra hne
    rw [if_neg hne] at h1
    exact zero_ne_one h1

/-- Witness of C6: data `1101011011`, generator `10011`. -/
theorem calculateCRC_remainder_witness :
    IsBinary ['1', '1', '0', '1', '0', '1', '1', '0', '1', '1'] ∧
    IsBinary ['1', '0', '0', '1', '1'] ∧
    (['1', '0', '0', '1', '1'] : List Char).head? = some '1' ∧
    ∃ R : List Char,
      calculateCRC ['1', '1', '0', '1', '0', '1', '1', '0', '1', '1'] ['1', '0', '0', '1', '1']
        = some R ∧
      R.length = ['1', '0', '0', '1', '1'].length - 1 ∧ IsBinary R ∧
      bitPoly R
        = (bitPoly ['1', '1', '0', '1', '0', '1', '1', '0', '1', '1']
            * X ^ (['1', '0', '0', '1', '1'].length - 1)) % bitPoly ['1', '0', '0', '1', '1'] ∧
      ∀ (j : Nat) (h : j < R.length),
        (R[j] = '1' ↔
          ((bitPoly ['1', '1', '0', '1', '0', '1', '1', '0', '1', '1']
              * X ^ (['1', '0', '0', '1', '1'].length - 1))
            % bitPoly ['1', '0', '0', '1', '1']).coeff
              (['1', '0', '0', '1', '1'].length - 1 - 1 - j) = 1) :=
  ⟨by decide, by decide, rfl,
    calculateCRC_remainder ['1', '1', '0', '1', '0', '1', '1', '0', '1', '1']
      ['1', '0', '0', '1', '1'] (by decide) (by decide) rfl⟩

/-- C3 (CRC round trip for `calculateCRC`).  For every binary data string `D` and
binary generator `G` with leading bit `'1'`, the codeword `T = D ++ calculateCRC(D, G)`
verifies as error-free; and for `D = 1101011011`, `G = 10011` the remainder is `1110`
and the codeword `11010110111110` verifies. -/
theorem calculateCRC_round_trip :
    (∀ D G : List Char, IsBinary D → IsBinary G → G.head? = some '1' →
      ∃ R : List Char, calculateCRC D G = some R ∧ verify (D ++ R) G = some true) ∧
    calculateCRC ['1', '1', '0', '1', '0', '1', '1', '0', '1', '1'] ['1', '0', '0', '1', '1']
      = some ['1', '1', '1', '0'] ∧
    ['1', '1', '0', '1', '0', '1', '1', '0', '1', '1'] ++ ['1', '1', '1', '0']
      = ['1', '1', '0', '1', '0', '1', '1', '0', '1', '1', '1', '1', '1', '0'] ∧
    verify ['1', '1', '0', '1', '0', '1', '1', '0', '1', '1', '1', '1', '1', '0']
      ['1', '0', '0', '1', '1'] = some true := by
  refine ⟨?_, by decide, rfl, by decide⟩
  intro D G hD hG hlead
  obtain ⟨G', rfl⟩ := generator_split G hlead
  obtain ⟨_, hG'⟩ := isBinary_cons.mp hG
  obtain ⟨R, hrun, hRl, hRbin, hpoly⟩ := calculateCRC_spec D G' hD hG'
  obtain ⟨b, hb, hiff⟩ := verify_spec G' (D ++ R) hG' (isBinary_append.mpr ⟨hD, hRbin⟩)
    (by simp [hRl])
  refine ⟨R, hrun, ?_⟩
  rw [hb, hiff.mpr (codeword_dvd D G' R hpoly hRl)]

/-- Witness of C3: the general part applied to `D = 1101011011`, `G = 10011`. -/
theorem calculateCRC_round_trip_witness :
    IsBinary ['1', '1', '0', '1', '0', '1', '1', '0', '1', '1'] ∧
    IsBinary ['1', '0', '0', '1', '1'] ∧
    (['1', '0', '0', '1', '1'] : List Char).head? = some '1' ∧
    ∃ R : List Char,
      calculateCRC ['1', '1', '0', '1', '0', '1', '1', '0', '1', '1'] ['1', '0', '0', '1', '1']
        = some R ∧
      verify (['1', '1', '0', '1', '0', '1', '1', '0', '1', '1'] ++ R)
        ['1', '0', '0', '1', '1'] = some true :=
  ⟨by decide, by decide, rfl,
    calculateCRC_round_trip.1 ['1', '1', '0', '1', '0', '1', '1', '0', '1', '1']
      ['1', '0', '0', '1', '1'] (by decide) (by decide) rfl⟩

/-- C4, counterexample.  With the valid generator `10` (that is `G(x) = x`) and the
data `1` the codeword is `10`; complementing its first bit gives `00`, which
`verify` accepts as error-free. -/
theorem single_bit_error_undetected :
    IsBinary ['1'] ∧ 1 ≤ ['1'].length ∧ IsBinary ['1', '0'] ∧ 2 ≤ ['1', '0'].length ∧
    (['1', '0'] : List Char).head? = some '1' ∧
    calculateCRC ['1'] ['1', '0'] = some ['0'] ∧
    0 < (['1'] ++ ['0'] : List Char).length ∧
    verify (flipChar (['1'] ++ ['0']) 0) ['1', '0'] = some true := by
  decide

/-- C4, as amended.  For every binary data string `D` and binary generator `G` with
leading bit `'1'` that has at least one further `'1'`, complementing any single
character of the codeword `T = D ++ calculateCRC(D, G)` makes `verify` answer
`false`. -/
theorem verify_detects_single_bit_error (D G : List Char) (hD : IsBinary D)
    (hG : IsBinary G) (hlead : G.head? = some '1')
    (hsecond : ∃ j, 1 ≤ j ∧ G[j]? = some '1') :
    ∃ R : List Char, calculateCRC D G = some R ∧
      ∀ p, p < (D ++ R).length → verify (flipChar (D ++ R) p) G = some false := by
  obtain ⟨G', rfl⟩ := generator_split G hlead
  obtain ⟨_, hG'⟩ := isBinary_cons.mp hG
  obtain ⟨R, hrun, hRl, hRbin, hpoly⟩ := calculateCRC_spec D G' hD hG'
  have hT : IsBinary (D ++ R) := isBinary_append.mpr ⟨hD, hRbin⟩
  refine ⟨R, hrun, ?_⟩
  intro p hp
  obtain ⟨b, hb, hiff⟩ := verify_spec G' (flipChar (D ++ R) p) hG'
    (isBinary_flipChar _ hT p) (by rw [length_flipChar]; simp [hRl])
  rw [hb]
  congr 1
  cases b with
  | false => rfl
  | true =>
    exfalso
    have hdvd := hiff.mp rfl
    rw [bitPoly_flipChar _ hT p hp] at hdvd
    have hx := (dvd_add_right (codeword_dvd D G' R hpoly hRl)).mp hdvd
    obtain ⟨j, hj1, hj⟩ := hsecond
    obtain ⟨i, rfl⟩ : ∃ i, j = i + 1 := ⟨j - 1, by omega⟩
    rw [List.getElem?_cons_succ] at hj
    obtain ⟨hi, hget⟩ := List.getElem?_eq_some_iff.mp hj
    exact generator_not_dvd_X_pow G' i hi hget _ hx

/-- Witness of the amended C4: data `1101011011`, generator `10011`. -/
theorem verify_detects_single_bit_error_witness :
    IsBinary ['1', '1', '0', '1', '0', '1', '1', '0', '1', '1'] ∧
    IsBinary ['1', '0', '0', '1', '1'] ∧
    (['1', '0', '0', '1', '1'] : List Char).head? = some '1' ∧
    (∃ j, 1 ≤ j ∧ (['1', '0', '0', '1', '1'] : List Char)[j]? = some '1') ∧
    ∃ R : List Char,
      calculateCRC ['1', '1', '0', '1', '0', '1', '1', '0', '1', '1'] ['1', '0', '0', '1', '1']
        = some R ∧
      ∀ p, p < (['1', '1', '0', '1', '0', '1', '1', '0', '1', '1'] ++ R).length →
        verify (flipChar (['1', '1', '0', '1', '0', '1', '1', '0', '1', '1'] ++ R) p)
          ['1', '0', '0', '1', '1'] = some false :=
  ⟨by decide, by decide, rfl, ⟨3, by decide, rfl⟩,
    verify_detects_single_bit_error ['1', '1', '0', '1', '0', '1', '1', '0', '1', '1']
      ['1', '0', '0', '1', '1'] (by decide) (by decide) rfl ⟨3, by decide, rfl⟩⟩

end Crc

namespace CrcInteractive

/-- C2, the run that breaks the round trip.  For data `11` and divisor `11` the
sender computes `mod2div(110, 11) = 01`, two characters instead of the one-bit
remainder `0`, so the codeword is `1101`; the receiver check on that codeword finds
a `'1'` in `mod2div(1101, 11) = 111` and reports an error.  No read leaves the
strings during either run. -/
theorem mod2div_round_trip_fails :
    mod2div ['1', '1', '0'] ['1', '1'] = some ['0', '1'] ∧
    codeword ['1', '1'] ['1', '1'] = some ['1', '1', '0', '1'] ∧
    mod2div ['1', '1', '0', '1'] ['1', '1'] = some ['1', '1', '1'] ∧
    receiverCheck ['1', '1', '0', '1'] ['1', '1'] = some false := by
  decide

end CrcInteractive

/-! ## The decoder on arbitrary packets -/

namespace Hamming

/-- C14, counterexample.  The loop returns at once for `m = 0`, because
`2^0 = 1` is not below `0 + 0 + 1`; the result is not 1. -/
theorem determine_redundant_bits_zero_ne_one : determine_redundant_bits 0 ≠ 1 := by
  simp [determine_redundant_bits, redundantLoop]

/-- C14, as amended.  `determine_redundant_bits(0)` returns 0, the smallest `r` with
`2^r ≥ 0 + r + 1`. -/
theorem determine_redundant_bits_zero : determine_redundant_bits 0 = 0 := by
  simp [determine_redundant_bits, redundantLoop]

theorem flipBit_of_lt (pkt : List Int) (e : Nat) (h : pkt.length < e) : flipBit pkt e = pkt := by
  unfold flipBit
  rw [if_neg (by omega)]

theorem flipBit_zero (pkt : List Int) : flipBit pkt 0 = pkt := by
  unfold flipBit
  rw [if_neg (by omega)]

theorem flipBit_of_mem (pkt : List Int) (e : Nat) (h1 : 1 ≤ e) (h2 : e ≤ pkt.length) :
    flipBit pkt e = pkt.set (e - 1) (Int.xor (pkt.getD (e - 1) 0) 1) := by
  unfold flipBit
  rw [if_pos ⟨h1, h2⟩]

theorem length_flipBit (pkt : List Int) (e : Nat) : (flipBit pkt e).length = pkt.length := by
  unfold flipBit
  split
  · rw [List.length_set]
  · rfl

theorem isBitVector_flipBit (pkt : List Int) (e : Nat) (h : IsBitVector pkt) :
    IsBitVector (flipBit pkt e) := by
  unfold flipBit
  split
  · exact isBitVector_set pkt _ _ h (int_xor_bit _ (isBitVector_getD pkt _ h)).1
  · exact h

/-- C15 (syndrome decoding rule).  For every 0/1 packet of length `n` and every `r`,
`decode_and_correct_error` returns `error_pos = Σ_{i<r} s_i * 2^i` with `s_i` the
parity of the 1-bits at the positions `j` of `1 .. n` with `j AND 2^i` non-zero; for
`error_pos = 0` the packet is unchanged, and for `1 ≤ error_pos ≤ n` the bit at
position `error_pos` is complemented and every other position is unchanged. -/
theorem decode_syndrome_rule (pkt : List Int) (r : Nat) (hpkt : IsBitVector pkt) :
    ∃ (pkt' : List Int) (e : Nat),
      decode_and_correct_error pkt r = some (pkt', e) ∧
      e = ((List.range r).map (fun i => coveredOnes pkt i % 2 * 2 ^ i)).sum ∧
      pkt'.length = pkt.length ∧
      (e = 0 → pkt' = pkt) ∧
      (1 ≤ e → e ≤ pkt.length →
        pkt'.getD (e - 1) 0 = 1 - pkt.getD (e - 1) 0 ∧
        ∀ j, j ≠ e - 1 → pkt'[j]? = pkt[j]?) := by
  refine ⟨flipBit pkt (syndromeValue pkt r), syndromeValue pkt r, decode_eq pkt r, rfl,
    length_flipBit _ _, ?_, ?_⟩
  · intro h0
    rw [h0, flipBit_zero]
  · intro h1 h2
    rw [flipBit_of_mem pkt _ h1 h2]
    constructor
    · rw [getD_set_self pkt _ _ (by omega)]
      rcases isBitVector_getD pkt (syndromeValue pkt r - 1) hpkt with h | h <;> rw [h] <;> decide
    · intro j hj
      rw [List.getElem?_set_ne (fun h => hj h.symm)]

/-- Witness of C15: the reference packet with bit 7 complemented, `r = 4`. -/
theorem decode_syndrome_rule_witness :
    IsBitVector [1, 1, 1, 0, 0, 1, 0, 0, 0, 0, 0, 1, 1] ∧
    ∃ (pkt' : List Int) (e : Nat),
      decode_and_correct_error [1, 1, 1, 0, 0, 1, 0, 0, 0, 0, 0, 1, 1] 4 = some (pkt', e) ∧
      e = ((List.range 4).map
            (fun i => coveredOnes [1, 1, 1, 0, 0, 1, 0, 0, 0, 0, 0, 1, 1] i % 2 * 2 ^ i)).sum ∧
      pkt'.length = ([1, 1, 1, 0, 0, 1, 0, 0, 0, 0, 0, 1, 1] : List Int).length ∧
      (e = 0 → pkt' = [1, 1, 1, 0, 0, 1, 0, 0, 0, 0, 0, 1, 1]) ∧
      (1 ≤ e → e ≤ ([1, 1, 1, 0, 0, 1, 0, 0, 0, 0, 0, 1, 1] : List Int).length →
        pkt'.getD (e - 1) 0
          = 1 - ([1, 1, 1, 0, 0, 1, 0, 0, 0, 0, 0, 1, 1] : List Int).getD (e - 1) 0 ∧
        ∀ j, j ≠ e - 1 → pkt'[j]? = ([1, 1, 1, 0, 0, 1, 0, 0, 0, 0, 0, 1, 1] : List Int)[j]?) :=
  ⟨by decide, decode_syndrome_rule [1, 1, 1, 0, 0, 1, 0, 0, 0, 0, 0, 1, 1] 4 (by decide)⟩

end Hamming

namespace Hamming

/-- C17, refutation of the claimed defect.  No packet and no `r` make
`decode_and_correct_error` access the packet outside `1 .. n`: in the embedding an
access outside a vector is the result `none`, and that result never occurs, with a
syndrome above `n` or otherwise. -/
theorem decode_no_out_of_bounds_access :
    ¬ ∃ (pkt : List Int) (r : Nat),
        pkt.length < syndromeValue pkt r ∧ decode_and_correct_error pkt r = none := by
  rintro ⟨pkt, r, _, h⟩
  rw [decode_eq] at h
  exact Option.noConfusion h

/-- C17, as amended.  For every packet of length `n` and every `r`, all accesses of
`decode_and_correct_error` stay inside the vectors: the call runs to its `return`
with a packet of the same length, and when the syndrome exceeds `n` the guard
`error_pos <= n` skips the flip, so the packet is returned as received. -/
theorem decode_access_in_bounds (pkt : List Int) (r : Nat) :
    ∃ (pkt' : List Int) (e : Nat),
      decode_and_correct_error pkt r = some (pkt', e) ∧
      pkt'.length = pkt.length ∧
      (pkt.length < e → pkt' = pkt) := by
  refine ⟨flipBit pkt (syndromeValue pkt r), syndromeValue pkt r, decode_eq pkt r,
    length_flipBit _ _, ?_⟩
  intro h
  exact flipBit_of_lt pkt _ h

/-- C12, counterexample.  The reference packet with bits 7 and 8 complemented has
length 13 and syndrome 15.  The decoder returns 15 through its ordinary `return
error_pos`, leaves the packet as received, and `main` reports the value with the
same line as a genuine correction (compare position 7). -/
theorem uncorrectable_syndrome_not_distinct :
    IsBitVector [1, 1, 1, 0, 0, 1, 0, 1, 0, 0, 0, 1, 1] ∧
    ([1, 1, 1, 0, 0, 1, 0, 1, 0, 0, 0, 1, 1] : List Int).length
      < syndromeValue [1, 1, 1, 0, 0, 1, 0, 1, 0, 0, 0, 1, 1] 4 ∧
    decode_and_correct_error [1, 1, 1, 0, 0, 1, 0, 1, 0, 0, 0, 1, 1] 4
      = some ([1, 1, 1, 0, 0, 1, 0, 1, 0, 0, 0, 1, 1], 15) ∧
    receiverResult 15 = ReceiverResult.detectedAndCorrected 15 ∧
    decode_and_correct_error [1, 1, 1, 0, 0, 1, 0, 0, 0, 0, 0, 1, 1] 4
      = some ([1, 1, 1, 0, 0, 1, 1, 0, 0, 0, 0, 1, 1], 7) ∧
    receiverResult 7 = ReceiverResult.detectedAndCorrected 7 := by
  decide

/-- C12, as amended.  For every packet of length `n` and every `r`, when the
syndrome value `error_pos` exceeds `n`, `decode_and_correct_error` returns
`error_pos` itself as its ordinary result, leaves the packet unchanged, and does not
index outside the packet. -/
theorem decode_syndrome_above_length (pkt : List Int) (r : Nat)
    (h : pkt.length < syndromeValue pkt r) :
    decode_and_correct_error pkt r = some (pkt, syndromeValue pkt r) := by
  rw [decode_eq, flipBit_of_lt pkt _ h]

/-- Witness of the amended C12: the reference packet with bits 7 and 8 complemented. -/
theorem decode_syndrome_above_length_witness :
    ([1, 1, 1, 0, 0, 1, 0, 1, 0, 0, 0, 1, 1] : List Int).length
      < syndromeValue [1, 1, 1, 0, 0, 1, 0, 1, 0, 0, 0, 1, 1] 4 ∧
    decode_and_correct_error [1, 1, 1, 0, 0, 1, 0, 1, 0, 0, 0, 1, 1] 4
      = some ([1, 1, 1, 0, 0, 1, 0, 1, 0, 0, 0, 1, 1],
          syndromeValue [1, 1, 1, 0, 0, 1, 0, 1, 0, 0, 0, 1, 1] 4) :=
  ⟨by decide, decode_syndrome_above_length [1, 1, 1, 0, 0, 1, 0, 1, 0, 0, 0, 1, 1] 4 (by decide)⟩

end Hamming

namespace CrcInteractive

/-- C16, the input on which the two variants differ.  For data `11` and generator
`11` (`k = 1`), `mod2div(110, 11)` returns the two characters `01`, while
`calculateCRC(11, 11)` returns the one-bit remainder `0`. -/
theorem mod2div_differs_from_calculateCRC :
    mod2div (['1', '1'] ++ List.replicate (['1', '1'].length - 1) '0') ['1', '1']
      = some ['0', '1'] ∧
    Crc.calculateCRC ['1', '1'] ['1', '1'] = some ['0'] := by
  decide

end CrcInteractive

/-! ## Shape of the division for arbitrary strings -/

namespace Crc

/-- One step of the division at an index whose window fits into the dividend: the
slice has the full generator length, and the step keeps the length of the dividend. -/
theorem divideStep_shape (G w : List Char) (i : Nat) (hi : i + G.length ≤ w.length)
    (hG : 1 ≤ G.length) :
    (∃ seg, substr w i G.length = some seg ∧ seg.length = G.length) ∧
    ∃ w', divideStep G w i = some w' ∧ w'.length = w.length := by
  have hlt : i < w.length := by omega
  have hseg : ((w.drop i).take G.length).length = G.length := by
    rw [List.length_take, List.length_drop]; omega
  have hsub : substr w i G.length = some ((w.drop i).take G.length) := by
    unfold substr; rw [if_pos (by omega)]
  refine ⟨⟨_, hsub, hseg⟩, ?_⟩
  unfold divideStep
  rw [strAt_lt w i hlt]
  simp only [Option.some_bind]
  by_cases hc : w[i] = '1'
  · rw [if_pos hc, hsub]
    simp only [Option.some_bind]
    rw [xor_op_eq _ _ hseg]
    simp only [Option.some_bind, strReplace]
    rw [if_pos (by omega)]
    refine ⟨_, rfl, ?_⟩
    simp only [List.length_append, List.length_take, List.length_drop, List.length_zipWith]
    omega
  · rw [if_neg hc]
    exact ⟨w, rfl, rfl⟩

/-- The division loop over `cnt` positions whose windows all fit keeps the length
of the working dividend and never leaves it. -/
theorem divideLoop_shape_upto (G w : List Char) (hG : 1 ≤ G.length) :
    ∀ cnt, cnt + G.length ≤ w.length + 1 →
      ∃ w', (List.range cnt).foldlM (divideStep G) w = some w' ∧ w'.length = w.length := by
  intro cnt
  induction cnt with
  | zero => intro _; exact ⟨w, by simp, rfl⟩
  | succ cnt ih =>
    intro hcnt
    obtain ⟨w1, hrun, hlen⟩ := ih (by omega)
    obtain ⟨_, w2, hstep, hlen2⟩ := divideStep_shape G w1 cnt (by omega) hG
    refine ⟨w2, ?_, by rw [hlen2, hlen]⟩
    rw [List.range_succ, List.foldlM_append, hrun]
    simp only [Option.bind_eq_bind, Option.some_bind, List.foldlM_cons, List.foldlM_nil, hstep]
    rfl

/-- The run of `calculateCRC` for a non-empty generator, whatever the characters. -/
theorem calculateCRC_total (D G : List Char) (hG : 1 ≤ G.length) :
    ∃ w R, divideLoop G (D ++ List.replicate (G.length - 1) '0') D.length = some w ∧
      w.length = D.length + (G.length - 1) ∧
      calculateCRC D G = some R ∧ R.length = G.length - 1 := by
  obtain ⟨w, hrun, hlen⟩ := divideLoop_shape_upto G (D ++ List.replicate (G.length - 1) '0') hG
    D.length (by simp; omega)
  have hlen' : w.length = D.length + (G.length - 1) := by simp [hlen]
  refine ⟨w, (w.drop D.length).take (G.length - 1), hrun, hlen', ?_, ?_⟩
  · unfold calculateCRC
    simp only
    rw [if_neg (by omega)]
    unfold divideLoop
    rw [hrun]
    simp only [Option.some_bind, substr]
    rw [if_pos (by omega)]
  · rw [List.length_take, List.length_drop]; omega

/-- C11 (shape and bounds of `calculateCRC`).  For every data string `D` (of any
length, also shorter than the generator's degree) and every generator `G` with at
least one character (`k = len(G) - 1`): before each step `i < len(D)` the working
dividend has length `len(D) + k` and the slice `substr(i, len(G))` has exactly
`len(G)` characters; the dividend has length `len(D) + k` after the loop; and the
returned remainder has exactly `k` characters. -/
theorem calculateCRC_shape (D G : List Char) (hG : 1 ≤ G.length) :
    (∀ i, i < D.length → ∃ w seg,
      (List.range i).foldlM (divideStep G) (D ++ List.replicate (G.length - 1) '0') = some w ∧
      w.length = D.length + (G.length - 1) ∧
      substr w i G.length = some seg ∧ seg.length = G.length) ∧
    (∃ w, divideLoop G (D ++ List.replicate (G.length - 1) '0') D.length = some w ∧
      w.length = D.length + (G.length - 1)) ∧
    ∃ R, calculateCRC D G = some R ∧ R.length = G.length - 1 := by
  obtain ⟨w, R, hrun, hlen, hcrc, hR⟩ := calculateCRC_total D G hG
  refine ⟨?_, ⟨w, hrun, hlen⟩, ⟨R, hcrc, hR⟩⟩
  intro i hi
  obtain ⟨w1, hrun1, hlen1⟩ :=
    divideLoop_shape_upto G (D ++ List.replicate (G.length - 1) '0') hG i (by simp; omega)
  have hlen1' : w1.length = D.length + (G.length - 1) := by simp [hlen1]
  obtain ⟨⟨seg, hsub, hseg⟩, _⟩ := divideStep_shape G w1 i (by omega) hG
  exact ⟨w1, seg, hrun1, hlen1', hsub, hseg⟩

/-- Witness of C11: data `1`, shorter than the degree 4 of the generator `10011`. -/
theorem calculateCRC_shape_witness :
    1 ≤ (['1', '0', '0', '1', '1'] : List Char).length ∧
    ((∀ i, i < (['1'] : List Char).length → ∃ w seg,
      (List.range i).foldlM (divideStep ['1', '0', '0', '1', '1'])
          (['1'] ++ List.replicate (['1', '0', '0', '1', '1'].length - 1) '0') = some w ∧
      w.length = ['1'].length + (['1', '0', '0', '1', '1'].length - 1) ∧
      substr w i ['1', '0', '0', '1', '1'].length = some seg ∧
      seg.length = ['1', '0', '0', '1', '1'].length) ∧
    (∃ w, divideLoop ['1', '0', '0', '1', '1']
          (['1'] ++ List.replicate (['1', '0', '0', '1', '1'].length - 1) '0') ['1'].length
        = some w ∧
      w.length = ['1'].length + (['1', '0', '0', '1', '1'].length - 1)) ∧
    ∃ R, calculateCRC ['1'] ['1', '0', '0', '1', '1'] = some R ∧
      R.length = ['1', '0', '0', '1', '1'].length - 1) :=
  ⟨by decide, calculateCRC_shape ['1'] ['1', '0', '0', '1', '1'] (by decide)⟩

/-- C13, counterexample.  `calculateCRC` returns a remainder for empty data, for a
generator of length 1 and for a generator whose leading bit is `'0'`. -/
theorem calculateCRC_accepts_invalid_input :
    calculateCRC [] ['1', '0', '1'] = some ['0', '0'] ∧
    calculateCRC ['1'] ['1'] = some [] ∧
    calculateCRC ['1', '0'] ['0', '1'] = some ['1'] := by
  decide

/-- C13, as amended.  `calculateCRC` checks none of its inputs.  It fails only for
the empty generator, where `string(k, '0')` with `k = -1` throws; for every other
generator, of length 1 or with any leading character, and for every data string,
empty or not, it returns a string of `len(generator) - 1` characters. -/
theorem calculateCRC_no_validation (data generator : List Char) :
    (generator = [] ∧ calculateCRC data generator = none) ∨
    (generator ≠ [] ∧
      ∃ R, calculateCRC data generator = some R ∧ R.length = generator.length - 1) := by
  cases generator with
  | nil => left; exact ⟨rfl, by simp [calculateCRC]⟩
  | cons c G =>
    right
    obtain ⟨_, R, _, _, hcrc, hR⟩ := calculateCRC_total data (c :: G) (by simp)
    exact ⟨by simp, R, hcrc, hR⟩

end Crc

/-! ## Double errors and repeated decoding -/

/-- A sum of distinct powers of two below `2^r`, chosen by `b`, has exactly the
binary digits `b` and stays below `2^r`. -/
theorem sum_pow_bits (b : Nat → Bool) : ∀ r : Nat,
    ((List.range r).map (fun i => if b i = true then 2 ^ i else 0)).sum < 2 ^ r ∧
    ∀ i, i < r →
      (((List.range r).map (fun i => if b i = true then 2 ^ i else 0)).sum).testBit i = b i := by
  intro r
  induction r with
  | zero => exact ⟨by simp, fun i hi => absurd hi (Nat.not_lt_zero i)⟩
  | succ r ih =>
    obtain ⟨hlt, hbits⟩ := ih
    rw [List.range_succ, List.map_append, List.sum_append]
    simp only [List.map_cons, List.map_nil, List.sum_cons, List.sum_nil, Nat.add_zero]
    rcases Bool.eq_false_or_eq_true (b r) with hb | hb
    · rw [if_pos hb]
      refine ⟨by rw [Nat.pow_succ]; omega, ?_⟩
      intro i hi
      rw [Nat.add_comm]
      rcases Nat.lt_succ_iff_lt_or_eq.mp hi with h | h
      · rw [Nat.testBit_two_pow_add_gt h]; exact hbits i h
      · rw [h, Nat.testBit_two_pow_add_eq, Nat.testBit_lt_two_pow hlt, hb]; rfl
    · have hnb : ¬ (b r = true) := by rw [hb]; simp
      rw [if_neg hnb, Nat.add_zero]
      refine ⟨by rw [Nat.pow_succ]; omega, ?_⟩
      intro i hi
      rcases Nat.lt_succ_iff_lt_or_eq.mp hi with h | h
      · exact hbits i h
      · rw [h, Nat.testBit_lt_two_pow hlt, hb]

namespace Hamming

theorem syndromeValue_eq_bits (pkt : List Int) (r : Nat) :
    syndromeValue pkt r
      = ((List.range r).map
          (fun i => if decide (coveredOnes pkt i % 2 = 1) = true then 2 ^ i else 0)).sum := by
  unfold syndromeValue
  congr 1
  apply List.map_congr_left
  intro i _
  rcases Nat.mod_two_eq_zero_or_one (coveredOnes pkt i) with h | h <;> simp [h]

/-- Binary digit `i < r` of the syndrome is the parity of check `i`. -/
theorem testBit_syndromeValue (pkt : List Int) (r i : Nat) (hi : i < r) :
    (syndromeValue pkt r).testBit i = decide (coveredOnes pkt i % 2 = 1) := by
  rw [syndromeValue_eq_bits]
  exact (sum_pow_bits (fun i => decide (coveredOnes pkt i % 2 = 1)) r).2 i hi

/-- After the correction every one of the `r` checks is even. -/
theorem coveredOnes_after_correction (pkt : List Int) (r : Nat) (hpkt : IsBitVector pkt)
    (h1 : 1 ≤ syndromeValue pkt r) (h2 : syndromeValue pkt r ≤ pkt.length) :
    ∀ i, i < r → coveredOnes (flipBit pkt (syndromeValue pkt r)) i % 2 = 0 := by
  intro i hi
  rw [coveredOnes_flipBit pkt _ i hpkt h1 h2, testBit_syndromeValue pkt r i hi]
  rcases Nat.mod_two_eq_zero_or_one (coveredOnes pkt i) with h | h
  · have hd : ¬ (decide (coveredOnes pkt i % 2 = 1) = true) := by simp [h]
    rw [if_neg hd]; omega
  · have hd : decide (coveredOnes pkt i % 2 = 1) = true := by simp [h]
    rw [if_pos hd]; omega

/-- C19 (decoding is idempotent after a correction).  For every 0/1 packet of length
`n` and every `r`, the first call returns some `e` and a packet `pkt'`; when
`1 ≤ e ≤ n`, every parity check of `pkt'` is even and a second call on `pkt'` with the
same `r` returns 0 and leaves `pkt'` unchanged. -/
theorem decode_idempotent (pkt : List Int) (r : Nat) (hpkt : IsBitVector pkt) :
    ∃ (pkt' : List Int) (e : Nat),
      decode_and_correct_error pkt r = some (pkt', e) ∧
      (1 ≤ e → e ≤ pkt.length →
        (∀ i, i < r → Even (coveredOnes pkt' i)) ∧
        decode_and_correct_error pkt' r = some (pkt', 0)) := by
  refine ⟨flipBit pkt (syndromeValue pkt r), syndromeValue pkt r, decode_eq pkt r, ?_⟩
  intro h1 h2
  have hev := coveredOnes_after_correction pkt r hpkt h1 h2
  refine ⟨fun i hi => Nat.even_iff.mpr (hev i hi), ?_⟩
  rw [decode_eq, syndromeValue_clean _ r hev, flipBit_zero]

/-- Witness of C19: the reference packet with bit 7 complemented; the first call
returns 7, so the second call is the one the claim speaks of. -/
theorem decode_idempotent_witness :
    IsBitVector [1, 1, 1, 0, 0, 1, 0, 0, 0, 0, 0, 1, 1] ∧
    decode_and_correct_error [1, 1, 1, 0, 0, 1, 0, 0, 0, 0, 0, 1, 1] 4
      = some ([1, 1, 1, 0, 0, 1, 1, 0, 0, 0, 0, 1, 1], 7) ∧
    ∃ (pkt' : List Int) (e : Nat),
      decode_and_correct_error [1, 1, 1, 0, 0, 1, 0, 0, 0, 0, 0, 1, 1] 4 = some (pkt', e) ∧
      (1 ≤ e → e ≤ ([1, 1, 1, 0, 0, 1, 0, 0, 0, 0, 0, 1, 1] : List Int).length →
        (∀ i, i < 4 → Even (coveredOnes pkt' i)) ∧
        decode_and_correct_error pkt' 4 = some (pkt', 0)) :=
  ⟨by decide, by decide,
    decode_idempotent [1, 1, 1, 0, 0, 1, 0, 0, 0, 0, 0, 1, 1] 4 (by decide)⟩

end Hamming

namespace Hamming

theorem getD_flipBit_other (X : List Int) (e p : Nat) (hp : 1 ≤ p) (hne : e ≠ p) :
    (flipBit X e).getD (p - 1) 0 = X.getD (p - 1) 0 := by
  unfold flipBit
  split
  · next h => exact getD_set_other X (e - 1) (p - 1) _ (by omega)
  · rfl

theorem getD_flipBit_self (X : List Int) (p : Nat) (hX : IsBitVector X)
    (h1 : 1 ≤ p) (h2 : p ≤ X.length) :
    (flipBit X p).getD (p - 1) 0 ≠ X.getD (p - 1) 0 := by
  rw [flipBit_of_mem X p h1 h2, getD_set_self X _ _ (by omega)]
  rcases isBitVector_getD X (p - 1) hX with h | h <;> rw [h] <;> decide

/-- The syndrome of a clean packet with two distinct bits flipped is the bitwise
XOR of the two positions. -/
theorem syndromeValue_double_flip (P : List Int) (p q r : Nat) (hP : IsBitVector P)
    (hev : ∀ i, i < r → coveredOnes P i % 2 = 0)
    (hp1 : 1 ≤ p) (hp2 : p ≤ P.length) (hq1 : 1 ≤ q) (hq2 : q ≤ P.length)
    (hp3 : p < 2 ^ r) (hq3 : q < 2 ^ r) :
    syndromeValue (flipBit (flipBit P p) q) r = p ^^^ q := by
  have hterm : ∀ i ∈ List.range r,
      coveredOnes (flipBit (flipBit P p) q) i % 2 * 2 ^ i
        = (if (p ^^^ q).testBit i then 2 ^ i else 0) := by
    intro i hi
    have hi' := List.mem_range.mp hi
    have h0 := hev i hi'
    have h1 := coveredOnes_flipBit P p i hP hp1 hp2
    have h2 := coveredOnes_flipBit (flipBit P p) q i (isBitVector_flipBit P p hP) hq1
      (by rw [length_flipBit]; exact hq2)
    rw [Nat.testBit_xor]
    rcases Bool.eq_false_or_eq_true (p.testBit i) with hp | hp <;>
      rcases Bool.eq_false_or_eq_true (q.testBit i) with hq | hq <;>
      simp only [hp, hq, if_true, Bool.false_eq_true, if_false] at h1 h2 <;>
      simp only [hp, hq, Bool.xor_self, Bool.xor_false, Bool.xor_true, Bool.not_false,
        Bool.not_true, Bool.false_eq_true, if_true, if_false]
    · have : coveredOnes (flipBit (flipBit P p) q) i % 2 = 0 := by omega
      rw [this, Nat.zero_mul]
    · have : coveredOnes (flipBit (flipBit P p) q) i % 2 = 1 := by omega
      rw [this, Nat.one_mul]
    · have : coveredOnes (flipBit (flipBit P p) q) i % 2 = 1 := by omega
      rw [this, Nat.one_mul]
    · have : coveredOnes (flipBit (flipBit P p) q) i % 2 = 0 := by omega
      rw [this, Nat.zero_mul]
  unfold syndromeValue
  rw [List.map_congr_left hterm, sum_bits_eq_mod,
    Nat.mod_eq_of_lt (Nat.xor_lt_two_pow hp3 hq3)]

/-- C18 (double errors).  For every binary data string `D` of length `m`, with
`r = determine_redundant_bits m`, `P = set_parity_bits(encode_data(D, r), r)`,
`n = m + r` and distinct positions `p`, `q` in `1 .. n`: `decode_and_correct_error`
on `P` with bits `p` and `q` complemented returns the bitwise XOR of `p` and `q`,
which is neither 0 nor `p` nor `q`, and the packet it leaves is not `P`. -/
theorem decode_double_error (D : List Char) (p q : Nat) (hD : IsBinary D)
    (hp1 : 1 ≤ p) (hp2 : p ≤ D.length + determine_redundant_bits D.length)
    (hq1 : 1 ≤ q) (hq2 : q ≤ D.length + determine_redundant_bits D.length)
    (hpq : p ≠ q) :
    ∃ pkt0 P pkt' : List Int,
      encode_data D = some (pkt0, determine_redundant_bits D.length) ∧
      set_parity_bits pkt0 (determine_redundant_bits D.length) = some P ∧
      decode_and_correct_error (flipBit (flipBit P p) q) (determine_redundant_bits D.length)
        = some (pkt', p ^^^ q) ∧
      p ^^^ q ≠ 0 ∧ p ^^^ q ≠ p ∧ p ^^^ q ≠ q ∧ pkt' ≠ P := by
  obtain ⟨pkt0, P, henc, hset, _, hlen, hev, _, hbit⟩ := sender_spec D
  obtain ⟨hr, _⟩ := drb_spec D.length
  have hP := hbit hD
  have hpl : p ≤ P.length := by rw [hlen]; exact hp2
  have hql : q ≤ P.length := by rw [hlen]; exact hq2
  have hne0 : p ^^^ q ≠ 0 := fun h => hpq (Nat.xor_eq_zero.mp h)
  have hnep : p ^^^ q ≠ p := by
    intro h
    have h2 : p ^^^ (p ^^^ q) = p ^^^ p := by rw [h]
    rw [Nat.xor_cancel_left, Nat.xor_self] at h2
    omega
  have hneq : p ^^^ q ≠ q := by
    intro h
    have h2 : (q ^^^ p) = q := by rw [Nat.xor_comm]; exact h
    have h3 : q ^^^ (q ^^^ p) = q ^^^ q := by rw [h2]
    rw [Nat.xor_cancel_left, Nat.xor_self] at h3
    omega
  have hsyn := syndromeValue_double_flip P p q _ hP hev hp1 hpl hq1 hql (by omega) (by omega)
  refine ⟨pkt0, P, flipBit (flipBit (flipBit P p) q) (p ^^^ q), henc, hset, ?_,
    hne0, hnep, hneq, ?_⟩
  · rw [decode_eq, hsyn]
  · intro hcon
    have hval := congrArg (fun X => X.getD (p - 1) 0) hcon
    simp only at hval
    rw [getD_flipBit_other _ _ p hp1 hnep, getD_flipBit_other _ q p hp1 (fun h => hpq h.symm)]
      at hval
    exact getD_flipBit_self P p hP hp1 hpl hval

/-- Witness of C18: data `101100011`, errors at positions 7 and 8 (syndrome 15). -/
theorem decode_double_error_witness :
    IsBinary ['1', '0', '1', '1', '0', '0', '0', '1', '1'] ∧ 1 ≤ 7 ∧
    7 ≤ ['1', '0', '1', '1', '0', '0', '0', '1', '1'].length
          + determine_redundant_bits ['1', '0', '1', '1', '0', '0', '0', '1', '1'].length ∧
    1 ≤ 8 ∧
    8 ≤ ['1', '0', '1', '1', '0', '0', '0', '1', '1'].length
          + determine_redundant_bits ['1', '0', '1', '1', '0', '0', '0', '1', '1'].length ∧
    7 ≠ 8 ∧
    ∃ pkt0 P pkt' : List Int,
      encode_data ['1', '0', '1', '1', '0', '0', '0', '1', '1']
        = some (pkt0,
            determine_redundant_bits ['1', '0', '1', '1', '0', '0', '0', '1', '1'].length) ∧
      set_parity_bits pkt0
          (determine_redundant_bits ['1', '0', '1', '1', '0', '0', '0', '1', '1'].length)
        = some P ∧
      decode_and_correct_error (flipBit (flipBit P 7) 8)
          (determine_redundant_bits ['1', '0', '1', '1', '0', '0', '0', '1', '1'].length)
        = some (pkt', 7 ^^^ 8) ∧
      7 ^^^ 8 ≠ 0 ∧ 7 ^^^ 8 ≠ 7 ∧ 7 ^^^ 8 ≠ 8 ∧ pkt' ≠ P :=
  ⟨by decide, by decide, by simp [determine_redundant_bits, redundantLoop], by decide,
    by simp [determine_redundant_bits, redundantLoop], by decide,
    decode_double_error ['1', '0', '1', '1', '0', '0', '0', '1', '1'] 7 8
      (by decide) (by decide) (by simp [determine_redundant_bits, redundantLoop]) (by decide)
      (by simp [determine_redundant_bits, redundantLoop]) (by decide)⟩

end Hamming

/-! ## The redundancy loop in 32-bit `int` -/

namespace Hamming

theorem wrapInt32_of_mem (x : Int) (h1 : -2147483648 ≤ x) (h2 : x < 2147483648) :
    wrapInt32 x = x := by
  unfold wrapInt32; omega

theorem wrapInt32_lt (x : Int) : wrapInt32 x < 2147483648 := by
  unfold wrapInt32; omega

theorem redundantLoopInt32_unfold (m : Int) (r : Nat) :
    redundantLoopInt32 m r
      = if (2 : Int) ^ r < wrapInt32 (wrapInt32 (m + (r : Int)) + 1) then
          redundantLoopInt32 m (r + 1)
        else r := by
  rw [redundantLoopInt32]

/-- As long as `m ≤ 2^31 - 32` the loop with the 32-bit sum and the loop in exact
arithmetic run alike from every `r ≤ 31`. -/
theorem redundantLoopInt32_eq (m : Nat) (hm : m + 32 ≤ 2147483648) :
    ∀ d r : Nat, r + d = 31 → redundantLoopInt32 (m : Int) r = redundantLoop m r := by
  intro d
  induction d with
  | zero =>
    intro r hr
    have hr31 : r = 31 := by omega
    have hw := wrapInt32_lt (wrapInt32 ((m : Int) + (r : Int)) + 1)
    have hpi : (2 : Int) ^ r = 2147483648 := by rw [hr31]; norm_num
    have hpn : (2 : Nat) ^ r = 2147483648 := by rw [hr31]; norm_num
    have h1 : ¬ ((2 : Int) ^ r < wrapInt32 (wrapInt32 ((m : Int) + (r : Int)) + 1)) := by
      rw [hpi]; omega
    have h2 : ¬ (2 ^ r < m + r + 1) := by
      rw [hpn]; omega
    rw [redundantLoopInt32_unfold, redundantLoop_unfold, if_neg h1, if_neg h2]
  | succ d ih =>
    intro r hr
    have hsum : wrapInt32 (wrapInt32 ((m : Int) + (r : Int)) + 1) = ((m + r + 1 : Nat) : Int) := by
      rw [wrapInt32_of_mem ((m : Int) + (r : Int)) (by omega) (by omega),
        wrapInt32_of_mem _ (by omega) (by omega)]
      push_cast; ring
    have hcond : ((2 : Int) ^ r < ((m + r + 1 : Nat) : Int)) ↔ 2 ^ r < m + r + 1 := by
      constructor
      · intro h; exact_mod_cast h
      · intro h; exact_mod_cast h
    rw [redundantLoopInt32_unfold, redundantLoop_unfold, hsum]
    by_cases h : 2 ^ r < m + r + 1
    · rw [if_pos (hcond.mpr h), if_pos h]
      exact ih (r + 1) (by omega)
    · rw [if_neg (fun hc => h (hcond.mp hc)), if_neg h]

/-- For `0 ≤ m ≤ 2^31 - 32` the source function is the function in exact arithmetic. -/
theorem determine_redundant_bits_int32_eq (m : Nat) (hm : m + 32 ≤ 2147483648) :
    determine_redundant_bits_int32 (m : Int) = determine_redundant_bits m :=
  redundantLoopInt32_eq m hm 31 0 (by omega)

/-- Minimal redundancy of the source function where the 32-bit sum does not
overflow: for `0 ≤ m ≤ 2^31 - 32` the returned `r` has `2^r ≥ m + r + 1` and every
smaller `q` has `2^q < m + q + 1`. -/
theorem determine_redundant_bits_int32_minimal (m : Nat) (hm : m + 32 ≤ 2147483648) :
    m + determine_redundant_bits_int32 (m : Int) + 1
        ≤ 2 ^ determine_redundant_bits_int32 (m : Int) ∧
      ∀ q, q < determine_redundant_bits_int32 (m : Int) → 2 ^ q < m + q + 1 := by
  rw [determine_redundant_bits_int32_eq m hm]
  exact drb_spec m

/-- C7, the inputs on which the code misses the claim.  For `m = 2147483647` the sum
`m + 0 + 1` overflows to `-2^31`, the loop condition `1 < -2^31` fails at once and
the function returns 0, although `2^0 < m + 0 + 1`; for `m = 2147483617` the sum
overflows at `r = 30` and the function returns 30, although `2^30 < m + 30 + 1`.
On the recorded values the function is right: `9 ↦ 4` and `4 ↦ 3`. -/
theorem determine_redundant_bits_int32_overflow :
    determine_redundant_bits_int32 2147483647 = 0 ∧
    ¬ (2147483647 + 0 + 1 ≤ 2 ^ 0) ∧
    determine_redundant_bits_int32 2147483617 = 30 ∧
    ¬ (2147483617 + 30 + 1 ≤ 2 ^ 30) ∧
    determine_redundant_bits_int32 9 = 4 ∧
    determine_redundant_bits_int32 4 = 3 := by
  refine ⟨?_, by norm_num, ?_, by norm_num, ?_, ?_⟩ <;>
    simp [determine_redundant_bits_int32, redundantLoopInt32, wrapInt32]

end Hamming
